import Mathlib

/-!
# vertical_log: CSV ingestion, typed sorting and search

A shallow embedding of `script.js` (the data core of the climbing-route log)
and the properties of it that the specification states.

Modelling conventions.

* A JavaScript string is a list of characters (`Str`).  All characters the
  program inspects (quote, comma, slash, line breaks, white space, digits,
  `A`–`C`, `+`, `-`) lie in the Basic Multilingual Plane, so reading a
  well-formed string by characters or by UTF-16 units gives the same result.
* `undefined` from an out-of-range index is `none`; `x || ''` is `Option.getD`.
* A JavaScript number is a binary64 value (`Number`): `NaN`, an infinity, or a
  finite value held exactly as `mant / 2 ^ scale`.  Every arithmetic result
  and every value read from text is rounded to the nearest binary64 value,
  ties to even (`Number.round`), also for text of more than 20 significant
  digits.  The two zeros are one value: nothing in the program tells them
  apart.
* Module-level variables (`viesData`, `currentSort`, `searchQuery`) are the
  fields of `State`; a function that assigns to them returns the new state.
* Functions whose result depends on locale tables or on the machine's time
  zone (`toLowerCase`, `localeCompare`, the local time-zone offset) are the
  fields of `Host`; the general theorems quantify over the host, and the
  concrete runs use `plainHost`.
* `Array.prototype.sort` is a stable sort; a stable insertion sort stands for
  it.  DOM updates (`renderTable`'s elements, the sort arrows) are not state of
  the core and are left out.
-/

namespace VerticalLog

/-! ## Strings -/

/-- A JavaScript string. -/
abbrev Str := List Char

/-- A parsed row: its fields in column order. -/
abbrev Row := List Str

/-- ECMAScript `WhiteSpace` and `LineTerminator` code points: what
`String.prototype.trim` strips. -/
def isWhiteSpace (c : Char) : Bool :=
  let n := c.toNat
  n = 0x09 || n = 0x0A || n = 0x0B || n = 0x0C || n = 0x0D || n = 0x20 ||
  n = 0xA0 || n = 0x1680 || (0x2000 ≤ n && n ≤ 0x200A) || n = 0x2028 ||
  n = 0x2029 || n = 0x202F || n = 0x205F || n = 0x3000 || n = 0xFEFF

/-- The method `String.prototype.trimStart`. -/
def trimStart (s : Str) : Str := s.dropWhile isWhiteSpace

/-- The method `String.prototype.trim`. -/
def trim (s : Str) : Str :=
  ((trimStart s).reverse.dropWhile isWhiteSpace).reverse

/-- Put a character in front of the first piece of a split. -/
def consHead (c : Char) : List Str → List Str
  | [] => [[c]]
  | h :: t => (c :: h) :: t

/-- The call `s.split(sep)` for a one-character separator. -/
def splitOnChar (sep : Char) : Str → List Str
  | [] => [[]]
  | c :: cs => if c = sep then [] :: splitOnChar sep cs else consHead c (splitOnChar sep cs)

/-- The call `text.split(/\r?\n/)`: a line ends at a line feed, and a carriage
return right before that line feed belongs to the separator. -/
def splitLines : Str → List Str
  | [] => [[]]
  | '\n' :: cs => [] :: splitLines cs
  | '\r' :: '\n' :: cs => [] :: splitLines cs
  | c :: cs => consHead c (splitLines cs)

/-! ## parseCSV -/

/-- The inner loop of `parseCSV` over the characters of one line that are
still to be read, with the loop variables `inQuotes`, `currentField` and `row`.
The cases are the branches of the loop body in source order: an escaped quote
inside quotes (two characters consumed), any other quote (toggle), a comma
outside quotes (commit the trimmed field), any other character (append).  At
the end of the line the last field is committed. -/
def scanLine : Str → Bool → Str → Row → Row
  | [], _, currentField, row => row ++ [trim currentField]
  | '"' :: '"' :: rest, true, currentField, row =>
      scanLine rest true (currentField ++ ['"']) row
  | '"' :: rest, inQuotes, currentField, row =>
      scanLine rest (!inQuotes) currentField row
  | ',' :: rest, false, currentField, row =>
      scanLine rest false [] (row ++ [trim currentField])
  | c :: rest, inQuotes, currentField, row =>
      scanLine rest inQuotes (currentField ++ [c]) row

/-- The function `parseCSV`: the outer loop skips a line whose trimmed text is
empty and pushes the row of every other line. -/
def parseCSV (text : Str) : List Row :=
  (splitLines text).foldl
    (fun result line =>
      if trim line = [] then result else result ++ [scanLine line false [] []])
    []

/-- A string with every double-quote character doubled. -/
def doubleQuotes : Str → Str
  | [] => []
  | c :: s => if c = '"' then '"' :: '"' :: doubleQuotes s else c :: doubleQuotes s

/-- CSV quoting of a field: the field between double quotes, every double
quote of it doubled. -/
def quoteField (s : Str) : Str := '"' :: (doubleQuotes s ++ ['"'])

/-- Whether a line is made of white space only. -/
def isBlankLine (line : Str) : Bool := line.all isWhiteSpace

/-- The row of a line by the naive rule: its pieces between commas, each
trimmed. -/
def naiveRow (line : Str) : Row := (splitOnChar ',' line).map trim

/-- The naive parse: one naive row per line that is not blank, in line
order. -/
def naiveParse (text : Str) : List Row :=
  ((splitLines text).filter (fun line => !isBlankLine line)).map naiveRow

/-- A piece already read, put in front of the first piece of a split. -/
def joinHead (cur : Str) : List Str → List Str
  | [] => [cur]
  | h :: t => (cur ++ h) :: t


/-! ## Numbers -/

/-- A JavaScript number, a binary64 value: `NaN`, an infinity, or the finite
value `mant / 2 ^ scale` in lowest terms (`scale` is 0 or `mant` is odd). -/
inductive Number where
  | nan
  | inf (negative : Bool)
  | fin (mant : Int) (scale : Nat)
deriving DecidableEq

/-- The position of the leading binary digit of `n`, at most `fuel` steps. -/
def log2Fuel : Nat → Nat → Nat
  | 0, _ => 0
  | fuel + 1, n => if n < 2 then 0 else log2Fuel fuel (n / 2) + 1

/-- The position of the leading binary digit of `n`: `2 ^ log2 n ≤ n` and
`n < 2 ^ (log2 n + 1)` for a positive `n`. -/
def log2 (n : Nat) : Nat := log2Fuel n n

/-- The binary exponent of the positive fraction `p / q`: the largest `e` with
`2 ^ e ≤ p / q`. -/
def floorLog2 (p q : Nat) : Int :=
  let l : Int := (log2 p : Int) - (log2 q : Int)
  if q * 2 ^ l.toNat ≤ p * 2 ^ (-l).toNat then l else l - 1

/-- The integer nearest to `a / b`, the even one of two equally near. -/
def roundHalfEven (a b : Nat) : Nat :=
  if 2 * (a % b) < b then a / b
  else if b < 2 * (a % b) then a / b + 1
  else if (a / b) % 2 = 0 then a / b
  else a / b + 1

/-- The fraction `m / 2 ^ k` in lowest terms. -/
def lowestTerms : Nat → Nat → Nat × Nat
  | m, 0 => (m, 0)
  | m, k + 1 => if m % 2 = 0 then lowestTerms (m / 2) k else (m, k + 1)

/-- The binary64 value nearest to the positive fraction `p / q`, ties to even:
the unit in the last place is `2 ^ u` for 53 significant binary digits, not
below the subnormal unit `2 ^ -1074`; `none` is overflow, a result of
`2 ^ 1024` or more. -/
def roundPositive (p q : Nat) : Option (Nat × Nat) :=
  let u : Int := max (floorLog2 p q - 52) (-1074)
  let m := roundHalfEven (p * 2 ^ (-u).toNat) (q * 2 ^ u.toNat)
  if 971 < (if m = 2 ^ 53 then u + 1 else u) then none
  else some (lowestTerms (m * 2 ^ u.toNat) (-u).toNat)

namespace Number

/-- The binary64 value of the exact fraction `num / den` (`den` positive):
round to nearest, ties to even, overflow to an infinity. -/
def round (num : Int) (den : Nat) : Number :=
  if num = 0 then fin 0 0
  else
    match roundPositive num.natAbs den with
    | none => inf (decide (num < 0))
    | some (m, k) => fin (if num < 0 then -(m : Int) else m) k

/-- An integer as a number. -/
def ofInt (n : Int) : Number := round n 1

/-- The operation `-a`. -/
def neg : Number → Number
  | nan => nan
  | inf s => inf (!s)
  | fin m k => fin (-m) k

/-- The operation `a + b`. -/
def add : Number → Number → Number
  | fin m1 k1, fin m2 k2 => round (m1 * 2 ^ k2 + m2 * 2 ^ k1) (2 ^ (k1 + k2))
  | inf s, inf t => if s = t then inf s else nan
  | inf s, fin _ _ => inf s
  | fin _ _, inf t => inf t
  | _, _ => nan

/-- The operation `a - b`. -/
def sub (a b : Number) : Number := a.add b.neg

/-- The operation `a * b`. -/
def mul : Number → Number → Number
  | fin m1 k1, fin m2 k2 => round (m1 * m2) (2 ^ (k1 + k2))
  | inf s, inf t => inf (s != t)
  | inf s, fin m _ => if m = 0 then nan else inf (s != decide (m < 0))
  | fin m _, inf t => if m = 0 then nan else inf (decide (m < 0) != t)
  | _, _ => nan

/-- Whether `a > 0`. -/
def isPositive : Number → Bool
  | inf s => !s
  | fin m _ => decide (0 < m)
  | nan => false

/-- The expression `a || 0`: zero for `NaN` (and for zero), else `a`. -/
def orZero : Number → Number
  | nan => fin 0 0
  | a => a

/-- The integer part of a finite number, toward zero (`ToIntegerOrInfinity`). -/
def trunc : Number → Int
  | fin m k => Int.tdiv m (2 ^ k)
  | _ => 0

/-- The relation `a < b`; false when either side is `NaN`. -/
def lt : Number → Number → Prop
  | fin m1 k1, fin m2 k2 => m1 * 2 ^ k2 < m2 * 2 ^ k1
  | inf s, fin _ _ => s = true
  | fin _ _, inf t => t = false
  | inf s, inf t => s = true ∧ t = false
  | _, _ => False

/-- The relation `a ≤ b`; false when either side is `NaN`. -/
def le (a b : Number) : Prop := a.lt b ∨ (a = b ∧ a ≠ nan)

instance : LT Number := ⟨lt⟩

instance : LE Number := ⟨le⟩

/-- Deciding `a < b`. -/
def decLt : (a b : Number) → Decidable (lt a b)
  | fin m1 k1, fin m2 k2 => inferInstanceAs (Decidable (m1 * 2 ^ k2 < m2 * 2 ^ k1))
  | inf s, fin _ _ => inferInstanceAs (Decidable (s = true))
  | fin _ _, inf t => inferInstanceAs (Decidable (t = false))
  | inf s, inf t => inferInstanceAs (Decidable (s = true ∧ t = false))
  | nan, _ => isFalse (fun h => h)
  | inf _, nan => isFalse (fun h => h)
  | fin _ _, nan => isFalse (fun h => h)

instance (a b : Number) : Decidable (a < b) := decLt a b

instance (a b : Number) : Decidable (a ≤ b) :=
  inferInstanceAs (Decidable (a < b ∨ (a = b ∧ a ≠ nan)))

end Number

/-- The class `\d`: the decimal digits `0` to `9`. -/
def isDigit (c : Char) : Bool := decide (48 ≤ c.toNat ∧ c.toNat ≤ 57)

/-- The value of a decimal digit. -/
def digitValue (c : Char) : Nat := c.toNat - 48

/-- The value of a string of decimal digits. -/
def digitsValue (ds : Str) : Nat := ds.foldl (fun n c => 10 * n + digitValue c) 0

/-- An optional `ExponentPart` at the start of `r`: `e` or `E`, an optional
sign and at least one digit.  Gives the exponent and what follows it. -/
def scanExponent (r : Str) : Option (Int × Str) :=
  match r with
  | [] => none
  | e :: r1 =>
    if e = 'e' ∨ e = 'E' then
      let negative := r1.head? = some '-'
      let r2 := if r1.head? = some '-' ∨ r1.head? = some '+' then r1.tail else r1
      let ds := r2.takeWhile isDigit
      if ds = [] then none
      else some (if negative then -(digitsValue ds : Int) else digitsValue ds,
                 r2.dropWhile isDigit)
    else none

/-- The longest prefix of `s` that is a `StrUnsignedDecimalLiteral`
(`Infinity`, `12`, `12.`, `12.5`, `.5`, the last four with an optional
exponent): its value, rounded to binary64, and the rest of `s`; `none` when
`s` starts with no such literal. -/
def scanUnsignedDecimal (s : Str) : Option (Number × Str) :=
  if "Infinity".toList <+: s then some (Number.inf false, s.drop 8)
  else
    let ip := s.takeWhile isDigit
    let r1 := s.dropWhile isDigit
    let hasPoint := r1.head? = some '.'
    let fp := if hasPoint then r1.tail.takeWhile isDigit else []
    if ip = [] ∧ fp = [] then none
    else
      let r2 := if hasPoint then r1.tail.dropWhile isDigit else r1
      let m : Int := digitsValue (ip ++ fp)
      match scanExponent r2 with
      | none => some (Number.round m (10 ^ fp.length), r2)
      | some (e, r3) =>
        some (Number.round (m * 10 ^ e.toNat) (10 ^ (fp.length + (-e).toNat)), r3)

/-- A decimal literal with an optional sign in front. -/
def scanSignedDecimal (s : Str) : Option (Number × Str) :=
  match s with
  | '-' :: r => (scanUnsignedDecimal r).map (fun p => (p.1.neg, p.2))
  | '+' :: r => scanUnsignedDecimal r
  | _ => scanUnsignedDecimal s

/-- The global function `parseFloat`: leading white space is skipped and the
longest decimal literal at the start is read. -/
def parseFloat (s : Str) : Number :=
  match scanSignedDecimal (trimStart s) with
  | some (v, _) => v
  | none => Number.nan

/-- The value of a digit in a radix up to 16, if it is one. -/
def radixDigit (radix : Nat) (c : Char) : Option Nat :=
  let v :=
    if 48 ≤ c.toNat ∧ c.toNat ≤ 57 then c.toNat - 48
    else if 97 ≤ c.toNat ∧ c.toNat ≤ 102 then c.toNat - 87
    else if 65 ≤ c.toNat ∧ c.toNat ≤ 70 then c.toNat - 55
    else 16
  if v < radix then some v else none

/-- The value of a non-empty string of digits in a radix. -/
def radixValue (radix : Nat) (ds : Str) : Option Nat :=
  if ds = [] then none
  else ds.foldl (fun acc c => acc.bind (fun n => (radixDigit radix c).map (fun v => radix * n + v)))
    (some 0)

/-- A `NonDecimalIntegerLiteral`: `0x`, `0o` or `0b` in either case, then
digits of that radix. -/
def nonDecimalLiteral (t : Str) : Option Nat :=
  match t with
  | '0' :: x :: ds =>
    if x = 'x' ∨ x = 'X' then radixValue 16 ds
    else if x = 'o' ∨ x = 'O' then radixValue 8 ds
    else if x = 'b' ∨ x = 'B' then radixValue 2 ds
    else none
  | _ => none

/-- The conversion `ToNumber` of a string, as the `Date` constructor and the
operator `-` apply it: the trimmed string is empty (zero), a non-decimal
integer literal, or one signed decimal literal; anything else is `NaN`. -/
def toNumber (s : Str) : Number :=
  if trim s = [] then Number.ofInt 0
  else
    match nonDecimalLiteral (trim s) with
    | some n => Number.ofInt n
    | none =>
      match scanSignedDecimal (trim s) with
      | some (v, []) => v
      | _ => Number.nan

/-- The call `parseInt(ds, 10)` on a string of decimal digits: the binary64
value nearest to the integer. -/
def parseInt (ds : Str) : Number := Number.ofInt (digitsValue ds)

/-- The method `toUpperCase` on the Basic Latin letters.  The case mappings of
other characters are not modelled: none of them yields a digit, a letter
`A`–`C` or `+`, the only characters the grade pattern accepts. -/
def toUpperCase (s : Str) : Str := s.map Char.toUpper

/-! ## gradeToSortValue -/

/-- The class `[A-C]` under the flag `i`. -/
def isGradeLetter (c : Char) : Bool :=
  c = 'A' || c = 'B' || c = 'C' || c = 'a' || c = 'b' || c = 'c'

/-- The call `grade.match(/^(\d+)([A-C]?)(\+?)$/i)`: the three groups, or
`none` when the string does not match. -/
def matchGrade (grade : Str) : Option (Str × Str × Str) :=
  let digits := grade.takeWhile isDigit
  if digits = [] then none
  else
    match grade.dropWhile isDigit with
    | [] => some (digits, [], [])
    | ['+'] => some (digits, [], ['+'])
    | [l] => if isGradeLetter l then some (digits, [l], []) else none
    | [l, '+'] => if isGradeLetter l then some (digits, [l], ['+']) else none
    | _ => none

/-- The term `match[2] ? (match[2].toUpperCase().charCodeAt(0) - 64) * 10 : 0`
for the second group `m2`. -/
def gradeLetterValue (m2 : Str) : Number :=
  if m2 = [] then Number.ofInt 0
  else
    match toUpperCase m2 with
    | c :: _ => ((Number.ofInt c.toNat).sub (Number.ofInt 64)).mul (Number.ofInt 10)
    | [] => Number.nan

/-- The function `gradeToSortValue`. -/
def gradeToSortValue (grade : Str) : Number :=
  if grade = [] ∨ grade = ['-'] then Number.ofInt (-1)
  else
    match matchGrade (toUpperCase (trim grade)) with
    | none => Number.ofInt 0
    | some (m1, m2, m3) =>
      let num := (parseInt m1).mul (Number.ofInt 100)
      let letter := gradeLetterValue m2
      let plus := if m3 = [] then Number.ofInt 0 else Number.ofInt 5
      (num.add letter).add plus

/-! ## dateToSortValue -/

/-- What the program takes from its surroundings: the case mapping and the
collation of the browser's locale data, and the local time zone. -/
structure Host where
  /-- The method `String.prototype.toLowerCase`. -/
  toLowerCase : Str → Str
  /-- The call `a.localeCompare(b, 'ca', { sensitivity: 'base' })`. -/
  localeCompare : Str → Str → Int
  /-- The offset of local time from UTC, in milliseconds, at a local time. -/
  localTZA : Int → Int

/-- Milliseconds in a day. -/
def msPerDay : Int := 86400000

/-- The largest time value of a `Date`, in milliseconds either side of the
epoch. -/
def maxTime : Int := 8640000000000000

/-- The day number of 1 January of year `y` (`DayFromYear`). -/
def dayFromYear (y : Int) : Int :=
  365 * (y - 1970) + (y - 1969) / 4 - (y - 1901) / 100 + (y - 1601) / 400

/-- Whether year `y` is a leap year. -/
def isLeapYear (y : Int) : Bool :=
  decide ((y % 4 = 0 ∧ y % 100 ≠ 0) ∨ y % 400 = 0)

/-- Days of the year before the first of month `mn` (zero-based, `0 ≤ mn < 12`). -/
def daysBeforeMonth (mn : Int) (leap : Bool) : Int :=
  [0, 31, 59, 90, 120, 151, 181, 212, 243, 273, 304, 334].getD mn.toNat 0
    + (if leap ∧ 2 ≤ mn then 1 else 0)

/-- The abstract operation `MakeDay` on integers: months beyond a year carry
into the year, days beyond a month carry on in day numbers. -/
def makeDay (year month date : Int) : Int :=
  let ym := year + month / 12
  let mn := month % 12
  dayFromYear ym + daysBeforeMonth mn (isLeapYear ym) + date - 1

/-- The call `new Date(year, month, date).getTime()`.  An argument that is not
finite gives `NaN`; a year from 0 to 99 means 1900 + year; the date is midnight
local time, converted to UTC; `TimeClip` gives `NaN` beyond the range of
`Date`.  The sums and products are taken on integers: a result within the
range of `Date` is below `2 ^ 53`, where binary64 arithmetic on integers is
exact, and rounding cannot bring a result from outside the range into it. -/
def newDateGetTime (H : Host) (year month date : Number) : Number :=
  match year, month, date with
  | Number.fin _ _, Number.fin _ _, Number.fin _ _ =>
    let yi := year.trunc
    let yr := if 0 ≤ yi ∧ yi ≤ 99 then 1900 + yi else yi
    let t := makeDay yr month.trunc date.trunc * msPerDay
    let u := t - H.localTZA t
    if -maxTime ≤ u ∧ u ≤ maxTime then Number.fin u 0 else Number.nan
  | _, _, _ => Number.nan

/-- The function `dateToSortValue`. -/
def dateToSortValue (H : Host) (dateStr : Str) : Number :=
  if dateStr = [] ∨ dateStr = ['-'] then Number.ofInt 0
  else
    match splitOnChar '/' (trim dateStr) with
    | [p0, p1, p2] =>
      newDateGetTime H (toNumber p2) ((toNumber p1).sub (Number.ofInt 1)) (toNumber p0)
    | _ => Number.ofInt 0

/-! ## State, search and sort -/

/-- The value of `currentSort`. -/
structure SortState where
  /-- The index of the active column. -/
  column : Int
  /-- The direction: `'asc'`, or anything else for descending. -/
  direction : Str
deriving DecidableEq

/-- The module-level variables of the program. -/
structure State where
  /-- The stored rows. -/
  viesData : List Row
  /-- The active sort. -/
  currentSort : SortState
  /-- The current search text. -/
  searchQuery : Str
deriving DecidableEq

/-- The state the module starts in. -/
def initialState : State := ⟨[], ⟨0, "desc".toList⟩, []⟩

/-- The values of the table `COLUMN_TYPES`. -/
inductive ColumnType where
  | numeric
  | text
  | grade
  | date
  | none
deriving DecidableEq

/-- The lookup `COLUMN_TYPES[columnIndex]`; an index that is no key of the
table gives `undefined`, here `Option.none`. -/
def COLUMN_TYPES (columnIndex : Int) : Option ColumnType :=
  if columnIndex = 0 then some ColumnType.numeric
  else if columnIndex = 1 then some ColumnType.text
  else if columnIndex = 2 then some ColumnType.grade
  else if columnIndex = 3 then some ColumnType.numeric
  else if columnIndex = 4 then some ColumnType.text
  else if columnIndex = 5 then some ColumnType.text
  else if columnIndex = 6 then some ColumnType.date
  else if columnIndex = 7 then some ColumnType.none
  else Option.none

/-- The constant `SEARCH_COLUMNS`. -/
def SEARCH_COLUMNS : List Int := [1, 2, 4, 5]

/-- The element access `row[col]`; outside the row it is `undefined`. -/
def getField (row : Row) (col : Int) : Option Str :=
  if 0 ≤ col then row.get? col.toNat else none

/-- The test of `getFilteredData` on one row for the lowercased query `q`:
some search column, read as the empty string when missing, contains `q` once
lowercased. -/
def rowMatches (H : Host) (q : Str) (row : Row) : Bool :=
  SEARCH_COLUMNS.any
    (fun col => decide (q <:+: H.toLowerCase ((getField row col).getD [])))

/-- The function `getFilteredData`: the result, and the state after the call
(the function assigns to no variable and calls no mutating method). -/
def getFilteredData (H : Host) (s : State) : List Row × State :=
  if s.searchQuery = [] then (s.viesData, s)
  else (s.viesData.filter (rowMatches H (H.toLowerCase s.searchQuery)), s)

/-- The comparator that `sortData` passes to `sort`, for the column type
`type` looked up by the caller. -/
def compareRows (H : Host) (type : Option ColumnType) (columnIndex : Int)
    (direction : Str) (a b : Row) : Number :=
  let valA := trim ((getField a columnIndex).getD [])
  let valB := trim ((getField b columnIndex).getD [])
  let cmp : Number :=
    match type with
    | some ColumnType.numeric => (parseFloat valA).orZero.sub (parseFloat valB).orZero
    | some ColumnType.text => Number.ofInt (H.localeCompare valA valB)
    | some ColumnType.grade => (gradeToSortValue valA).sub (gradeToSortValue valB)
    | some ColumnType.date => (dateToSortValue H valA).sub (dateToSortValue H valB)
    | _ => Number.ofInt 0
  if direction = "asc".toList then cmp else cmp.neg

/-- How `Array.prototype.sort` reads a comparator result: `a` has to come
after `b` only for a result above zero; zero and `NaN` leave the pair as it
is. -/
def notAfter (cmp : Row → Row → Number) (a b : Row) : Prop :=
  ¬ ((cmp a b).isPositive = true)

instance (cmp : Row → Row → Number) : DecidableRel (notAfter cmp) :=
  fun _ _ => inferInstanceAs (Decidable (¬ _))

/-- The method `Array.prototype.sort` with a comparator, which is a stable
sort: a stable insertion sort stands for it (for a comparator that orders the
rows consistently every stable sort gives the same list). -/
def arraySort (cmp : Row → Row → Number) (rows : List Row) : List Row :=
  rows.insertionSort (notAfter cmp)

/-- The function `sortData`: nothing happens for a column of type `'none'`;
otherwise `currentSort` is set and the stored rows are sorted in place. -/
def sortData (H : Host) (columnIndex : Int) (direction : Str) (s : State) : State :=
  if COLUMN_TYPES columnIndex = some ColumnType.none then s
  else
    { s with
      currentSort := ⟨columnIndex, direction⟩
      viesData :=
        arraySort (compareRows H (COLUMN_TYPES columnIndex) columnIndex direction)
          s.viesData }

/-- The rows for which `renderTable` appends a table row: the filtered rows,
those with fewer than two fields skipped. -/
def renderTable (H : Host) (s : State) : List Row :=
  (getFilteredData H s).1.filter (fun row => !decide (row.length < 2))

/-- The click listener that `setupDesktopSortHandlers` installs on the header
of column `index`; the header of a column of type `'none'` gets no listener. -/
def headerClick (H : Host) (index : Int) (s : State) : State :=
  if COLUMN_TYPES index = some ColumnType.none then s
  else
    let newDirection :=
      if s.currentSort.column = index ∧ s.currentSort.direction = "asc".toList
      then "desc".toList else "asc".toList
    sortData H index newDirection s

/-- The input listener of the search box: `searchQuery = input.value`. -/
def searchInput (value : Str) (s : State) : State := { s with searchQuery := value }

/-- The function `fetchAndRenderVies` once the text has arrived: parse, drop
the header row, store the rest, and sort by column 0 descending. -/
def fetchAndRenderVies (H : Host) (csvText : Str) (s : State) : State :=
  sortData H 0 "desc".toList { s with viesData := (parseCSV csvText).tail }

/-- A run of `sortData` calls, each given by its column and direction. -/
def sortCalls (H : Host) (calls : List (Int × Str)) (s : State) : State :=
  calls.foldl (fun st call => sortData H call.1 call.2 st) s

/-- A host for concrete runs: Basic Latin case mapping, comparison that
calls all strings equal, and UTC as the local time zone. -/
def plainHost : Host := ⟨fun s => s.map Char.toLower, fun _ _ => 0, fun _ => 0⟩

/-- The three rows of the spec's end-to-end example, ids 2, 1 and 3. -/
def exampleRows : List Row :=
  [["2", "Riu", "6a", "15", "Fissura", "Zona1", "01/05/2021", "http://x"].map String.toList,
   ["1", "Pont", "6a+", "10", "Placa", "Zona2", "-", "-"].map String.toList,
   ["3", "Cova", "5+", "20", "Fissura", "Zona1", "-", "-"].map String.toList]

/-- The ids (column 0) of a list of rows. -/
def ids (rows : List Row) : List String := rows.map (fun r => String.mk (r.headD []))

/-! ## Vocabulary of the properties -/

/-- The search test as the specification words it: some field at column 1, 2,
4 or 5, a missing field counting as the empty string, contains the lowercased
query as a substring of its lowercased text. -/
def matchesQuery (H : Host) (query : Str) (row : Row) : Prop :=
  ∃ col ∈ ([1, 2, 4, 5] : List Int),
    H.toLowerCase query <:+: H.toLowerCase ((getField row col).getD [])

instance (H : Host) (query : Str) (row : Row) : Decidable (matchesQuery H query row) :=
  inferInstanceAs (Decidable (∃ col ∈ ([1, 2, 4, 5] : List Int), _))

/-- The sort key of a row on the grade column: the number that
`gradeToSortValue` returns for the trimmed field. -/
def gradeKey (row : Row) : Number := gradeToSortValue (trim ((getField row 2).getD []))

/-- Order of two keys in a direction: non-decreasing for `'asc'`, non-increasing
for any other direction. -/
def inDirection {α : Type} [LE α] (direction : Str) (x y : α) : Prop :=
  if direction = "asc".toList then x ≤ y else y ≤ x

instance {α : Type} [LE α] [DecidableRel (fun a b : α => a ≤ b)] (direction : Str) :
    DecidableRel (@inDirection α _ direction) :=
  fun _ _ => inferInstanceAs (Decidable (if _ then _ else _))

/-- A decimal integer literal: one or more decimal digits. -/
def isDecimalInteger (f : Str) : Prop := f ≠ [] ∧ ∀ c ∈ f, isDigit c = true

instance : DecidablePred isDecimalInteger :=
  fun _ => inferInstanceAs (Decidable (_ ∧ _))

/-- The value of the column-0 field of a row, read as a decimal integer. -/
def col0Value (row : Row) : Int := digitsValue ((getField row 0).getD [])

/-- The stable sort of a view by column-0 integer value in a direction. -/
def stableSortByCol0 (direction : Str) (view : List Row) : List Row :=
  view.insertionSort (fun a b => inDirection direction (col0Value a) (col0Value b))

/-- The column-0 value of a row as a number: the binary64 value nearest to the
integer. -/
def col0Number (row : Row) : Number := Number.ofInt (col0Value row)

/-- The stable sort of a view by column-0 number in a direction. -/
def stableSortByCol0Number (direction : Str) (view : List Row) : List Row :=
  view.insertionSort (fun a b => inDirection direction (col0Number a) (col0Number b))

/-- A key that is not `NaN`, not minus infinity, and an integer when finite. -/
def IsKey (x : Number) : Prop := x = Number.inf false ∨ ∃ m : Int, x = Number.fin m 0

/-- A key that in addition is not negative. -/
def IsNonnegKey (x : Number) : Prop :=
  x = Number.inf false ∨ ∃ m : Int, 0 ≤ m ∧ x = Number.fin m 0

/-- A sortable column: its `COLUMN_TYPES` entry is numeric, text, grade or
date. -/
def isSortable (column : Int) : Prop :=
  COLUMN_TYPES column = some ColumnType.numeric ∨ COLUMN_TYPES column = some ColumnType.text ∨
  COLUMN_TYPES column = some ColumnType.grade ∨ COLUMN_TYPES column = some ColumnType.date

instance : DecidablePred isSortable :=
  fun _ => inferInstanceAs (Decidable (_ ∨ _ ∨ _ ∨ _))

/-- A well-formed grade token: digits, an optional letter, an optional `+`. -/
def gradeToken (digits : Str) (letter : Option Char) (plus : Bool) : Str :=
  digits ++ (letter.toList ++ (if plus then ['+'] else []))

/-- The rank of the letter of a grade: 0 without a letter, then A = 1, B = 2,
C = 3, in either case. -/
def letterRank : Option Char → Int
  | Option.none => 0
  | some c => if c = 'A' ∨ c = 'a' then 1 else if c = 'B' ∨ c = 'b' then 2 else 3

/-- The plus flag of a grade as a number. -/
def plusFlag (plus : Bool) : Int := if plus then 1 else 0

/-- Lexicographic order on (number, letter rank, plus flag). -/
def lexLess (n1 r1 p1 n2 r2 p2 : Int) : Prop :=
  n1 < n2 ∨ (n1 = n2 ∧ (r1 < r2 ∨ (r1 = r2 ∧ p1 < p2)))

instance (n1 r1 p1 n2 r2 p2 : Int) : Decidable (lexLess n1 r1 p1 n2 r2 p2) :=
  inferInstanceAs (Decidable (_ ∨ _))

/-- A date token `D/M/Y`. -/
def dateToken (day month year : Str) : Str := day ++ '/' :: (month ++ '/' :: year)

/-- The length of month `m` (1 to 12) of year `y` in days. -/
def daysInMonth (y m : Int) : Int :=
  if m = 2 then (if isLeapYear y then 29 else 28)
  else if m = 4 ∨ m = 6 ∨ m = 9 ∨ m = 11 then 30
  else 31

/-- Whether day `d` of month `m` of year `y` is a date of the calendar. -/
def isValidDate (d m y : Int) : Prop :=
  1 ≤ m ∧ m ≤ 12 ∧ 1 ≤ d ∧ d ≤ daysInMonth y m

instance (d m y : Int) : Decidable (isValidDate d m y) :=
  inferInstanceAs (Decidable (_ ∧ _ ∧ _ ∧ _))
end VerticalLog

namespace VerticalLog

/-! ## Lemmas on strings -/

theorem trim_eq_nil_iff (s : Str) : trim s = [] ↔ ∀ c ∈ s, isWhiteSpace c = true := by
  unfold trim trimStart
  rw [List.reverse_eq_nil_iff, List.dropWhile_eq_nil_iff]
  constructor
  · intro h
    have h2 : s.dropWhile isWhiteSpace = [] := by
      by_contra hne
      have hh := List.head_dropWhile_not isWhiteSpace s hne
      have hm := h _ (List.mem_reverse.mpr (List.head_mem hne))
      simp [hm] at hh
    exact List.dropWhile_eq_nil_iff.mp h2
  · intro h c hc
    have h2 : s.dropWhile isWhiteSpace = [] := List.dropWhile_eq_nil_iff.mpr h
    simp [h2] at hc

theorem splitLines_of_no_lf (t : Str) (h : '\n' ∉ t) : splitLines t = [t] := by
  induction t with
  | nil => rfl
  | cons c cs ih =>
    have hc : c ≠ '\n' := fun e => h (by simp [e])
    have hcs : '\n' ∉ cs := fun e => h (List.mem_cons_of_mem _ e)
    rw [splitLines.eq_4 c cs (fun e => hc e) (fun r _ e => hcs (by simp [e])), ih hcs]
    rfl

theorem joinHead_nil (x : List Str) (hx : x ≠ []) : joinHead [] x = x := by
  cases x with
  | nil => exact absurd rfl hx
  | cons h t => rfl

theorem joinHead_consHead (cur : Str) (c : Char) (x : List Str) :
    joinHead cur (consHead c x) = joinHead (cur ++ [c]) x := by
  cases x <;> simp [joinHead, consHead]

theorem splitOnChar_ne_nil (sep : Char) (s : Str) : splitOnChar sep s ≠ [] := by
  cases s with
  | nil => simp [splitOnChar]
  | cons c cs =>
    unfold splitOnChar
    split
    · simp
    · cases splitOnChar sep cs <;> simp [consHead]

theorem length_consHead (c : Char) (x : List Str) (hx : x ≠ []) :
    (consHead c x).length = x.length := by
  cases x with
  | nil => exact absurd rfl hx
  | cons h t => rfl

theorem length_splitOnChar (sep : Char) (s : Str) :
    (splitOnChar sep s).length = s.count sep + 1 := by
  induction s with
  | nil => rfl
  | cons c cs ih =>
    unfold splitOnChar
    by_cases hc : c = sep
    · subst hc; simp [ih]
    · rw [if_neg hc, length_consHead _ _ (splitOnChar_ne_nil sep cs), ih,
        List.count_cons_of_ne (fun e => hc e.symm)]

/-! ## Lemmas on parseCSV -/

theorem scanLine_quoted (s cur : Str) (row : Row) :
    scanLine (doubleQuotes s ++ ['"']) true cur row
      = row ++ [trim (cur ++ s)] := by
  induction s generalizing cur with
  | nil =>
    simp only [doubleQuotes, List.nil_append, List.append_nil]
    rw [scanLine.eq_3 _ _ _ _ (by simp)]
    rfl
  | cons c s ih =>
    by_cases hc : c = '"'
    · subst hc
      simp only [doubleQuotes, if_true, List.cons_append]
      rw [scanLine.eq_2, ih]
      simp
    · simp only [doubleQuotes, if_neg hc, List.cons_append]
      rw [scanLine.eq_5 _ _ _ _ _ (fun e => hc e) (fun _ e => absurd e hc) (by simp), ih]
      simp

theorem scanLine_unquoted (line cur : Str) (row : Row) (h : '"' ∉ line) :
    scanLine line false cur row
      = row ++ (joinHead cur (splitOnChar ',' line)).map trim := by
  induction line generalizing cur row with
  | nil => simp [scanLine, splitOnChar, joinHead]
  | cons c rest ih =>
    have hc : c ≠ '"' := fun e => h (by simp [e])
    have hr : '"' ∉ rest := fun e => h (List.mem_cons_of_mem _ e)
    by_cases hcomma : c = ','
    · subst hcomma
      rw [scanLine.eq_4, ih _ _ hr, joinHead_nil _ (splitOnChar_ne_nil _ _)]
      simp [splitOnChar, joinHead]
    · rw [scanLine.eq_5 _ _ _ _ _ (fun e => hc e) (fun _ e => absurd e hc)
        (fun e => absurd e hcomma), ih _ _ hr]
      simp [splitOnChar, hcomma, joinHead_consHead]

theorem foldl_lines (f : Str → Row) (lines : List Str) (acc : List Row) :
    lines.foldl (fun result line => if trim line = [] then result else result ++ [f line]) acc
      = acc ++ (lines.filter (fun line => !isBlankLine line)).map f := by
  induction lines generalizing acc with
  | nil => simp
  | cons l ls ih =>
    rw [List.foldl_cons, ih]
    by_cases hb : trim l = []
    · have : isBlankLine l = true := by
        simpa [isBlankLine, List.all_eq_true] using (trim_eq_nil_iff l).mp hb
      simp [hb, this]
    · have : isBlankLine l = false := by
        cases hbl : isBlankLine l with
        | false => rfl
        | true =>
          exact absurd ((trim_eq_nil_iff l).mpr (by
            simpa [isBlankLine, List.all_eq_true] using hbl)) hb
      simp [hb, this]


theorem mem_of_mem_doubleQuotes (x : Char) (s : Str) (h : x ∈ doubleQuotes s) : x ∈ s := by
  induction s with
  | nil => simp [doubleQuotes] at h
  | cons c s ih =>
    unfold doubleQuotes at h
    split at h
    · rename_i hc
      simp only [List.mem_cons] at h
      rcases h with h | h | h
      · simp [h, hc]
      · simp [h, hc]
      · exact List.mem_cons_of_mem _ (ih h)
    · simp only [List.mem_cons] at h
      rcases h with h | h
      · simp [h]
      · exact List.mem_cons_of_mem _ (ih h)

theorem mem_of_mem_consHead (x c : Char) (l : Str) (ls : List Str)
    (hl : l ∈ consHead c ls) (hx : x ∈ l) : x = c ∨ ∃ l2 ∈ ls, x ∈ l2 := by
  cases ls with
  | nil =>
    simp only [consHead, List.mem_singleton] at hl
    subst hl
    simpa using hx
  | cons h t =>
    simp only [consHead, List.mem_cons] at hl
    rcases hl with hl | hl
    · subst hl
      simp only [List.mem_cons] at hx
      rcases hx with hx | hx
      · exact Or.inl hx
      · exact Or.inr ⟨h, by simp, hx⟩
    · exact Or.inr ⟨l, by simp [hl], hx⟩

theorem mem_of_mem_splitLines (x : Char) (t line : Str)
    (hl : line ∈ splitLines t) (hx : x ∈ line) : x ∈ t := by
  induction t using splitLines.induct generalizing line with
  | case1 => simp [splitLines] at hl; subst hl; exact hx
  | case2 cs ih =>
    rw [splitLines.eq_2] at hl
    simp only [List.mem_cons] at hl
    rcases hl with hl | hl
    · subst hl; simp at hx
    · exact List.mem_cons_of_mem _ (ih _ hl hx)
  | case3 cs ih =>
    rw [splitLines.eq_3] at hl
    simp only [List.mem_cons] at hl
    rcases hl with hl | hl
    · subst hl; simp at hx
    · exact List.mem_cons_of_mem _ (List.mem_cons_of_mem _ (ih _ hl hx))
  | case4 c cs h1 h2 ih =>
    rw [splitLines.eq_4 c cs h1 h2] at hl
    rcases mem_of_mem_consHead _ _ _ _ hl hx with h | ⟨l2, hl2, hx2⟩
    · simp [h]
    · exact List.mem_cons_of_mem _ (ih _ hl2 hx2)

/-! ## Lemmas on sorting -/

theorem insertionSort_congr {α : Type} (r r2 : α → α → Prop) [DecidableRel r] [DecidableRel r2]
    (l : List α) (h : ∀ a ∈ l, ∀ b ∈ l, r a b ↔ r2 a b) :
    l.insertionSort r = l.insertionSort r2 := by
  induction l with
  | nil => rfl
  | cons a l ih =>
    have ih2 := ih (fun x hx y hy => h x (List.mem_cons_of_mem _ hx) y (List.mem_cons_of_mem _ hy))
    simp only [List.insertionSort]
    rw [← ih2]
    have hsub : ∀ b ∈ l.insertionSort r, r a b ↔ r2 a b := fun b hb =>
      h a (List.mem_cons_self _ _) b (List.mem_cons_of_mem _ ((List.mem_insertionSort r).mp hb))
    generalize l.insertionSort r = m at hsub
    induction m with
    | nil => rfl
    | cons b m ihm =>
      have hb := hsub b (List.mem_cons_self _ _)
      have ihm2 := ihm (fun x hx => hsub x (List.mem_cons_of_mem _ hx))
      by_cases hr : r a b
      · simp [List.orderedInsert, hr, hb.mp hr]
      · simp [List.orderedInsert, hr, mt hb.mpr hr, ihm2]

theorem filter_orderedInsert_of_neg {α : Type} (r : α → α → Prop) [DecidableRel r]
    (p : α → Bool) (a : α) (l : List α) (ha : p a = false) :
    (l.orderedInsert r a).filter p = l.filter p := by
  induction l with
  | nil => simp [ha]
  | cons b l ih =>
    by_cases hr : r a b
    · simp [List.orderedInsert, hr, List.filter_cons, ha]
    · simp [List.orderedInsert, hr, List.filter_cons, ih]

theorem filter_orderedInsert_stable {α : Type} (r : α → α → Prop) [DecidableRel r]
    (p : α → Bool) (a : α) (l : List α) (ha : p a = true)
    (h : ∀ b, ¬ r a b → p b = false) :
    (l.orderedInsert r a).filter p = a :: l.filter p := by
  induction l with
  | nil => simp [ha]
  | cons b l ih =>
    by_cases hr : r a b
    · simp [List.orderedInsert, hr, List.filter_cons, ha]
    · simp [List.orderedInsert, hr, List.filter_cons, ih, h b hr]

theorem filter_key_insertionSort {α κ : Type} [DecidableEq κ] (r : α → α → Prop) [DecidableRel r]
    (key : α → κ) (h : ∀ a b, ¬ r a b → key a ≠ key b) (k : κ) (l : List α) :
    (l.insertionSort r).filter (fun x => decide (key x = k))
      = l.filter (fun x => decide (key x = k)) := by
  induction l with
  | nil => rfl
  | cons a l ih =>
    simp only [List.insertionSort]
    by_cases hk : key a = k
    · rw [filter_orderedInsert_stable r _ a _ (by simp [hk]), ih]
      · simp [List.filter_cons, hk]
      · intro b hb
        have := h a b hb
        simp only [decide_eq_false_iff_not]
        intro e
        exact this (hk.trans e.symm)
    · rw [filter_orderedInsert_of_neg r _ a _ (by simp [hk]), ih]
      simp [List.filter_cons, hk]

theorem filter_orderedInsert_sorted {α : Type} (r : α → α → Prop) [DecidableRel r]
    (htrans : ∀ a b c, r a b → r b c → r a c)
    (p : α → Bool) (a : α) (l : List α) (ha : p a = true) (hl : l.Sorted r) :
    (l.orderedInsert r a).filter p = (l.filter p).orderedInsert r a := by
  induction l with
  | nil => simp [ha]
  | cons b l ih =>
    have hl2 : l.Sorted r := hl.of_cons
    by_cases hr : r a b
    · rw [List.orderedInsert, if_pos hr, List.filter_cons_of_pos ha]
      by_cases hb : p b = true
      · rw [List.filter_cons_of_pos hb, List.orderedInsert, if_pos hr]
      · rw [List.filter_cons_of_neg hb]
        cases hf : l.filter p with
        | nil => rfl
        | cons x m =>
          have hx : x ∈ l := (List.mem_filter.mp (hf ▸ List.mem_cons_self x m)).1
          have hbx : r b x := List.rel_of_sorted_cons hl x hx
          rw [List.orderedInsert, if_pos (htrans _ _ _ hr hbx)]
    · rw [List.orderedInsert, if_neg hr]
      by_cases hb : p b = true
      · rw [List.filter_cons_of_pos hb, List.filter_cons_of_pos hb, List.orderedInsert,
          if_neg hr, ih hl2]
      · rw [List.filter_cons_of_neg hb, List.filter_cons_of_neg hb, ih hl2]

theorem filter_insertionSort {α : Type} (r : α → α → Prop) [DecidableRel r]
    (htotal : ∀ a b, r a b ∨ r b a) (htrans : ∀ a b c, r a b → r b c → r a c)
    (p : α → Bool) (l : List α) :
    (l.insertionSort r).filter p = (l.filter p).insertionSort r := by
  haveI : IsTotal α r := ⟨htotal⟩
  haveI : IsTrans α r := ⟨htrans⟩
  induction l with
  | nil => rfl
  | cons a l ih =>
    simp only [List.insertionSort]
    by_cases ha : p a = true
    · rw [filter_orderedInsert_sorted r htrans p a _ ha (List.sorted_insertionSort r l), ih,
        List.filter_cons_of_pos ha, List.insertionSort]
    · rw [filter_orderedInsert_of_neg r p a _ (by simpa using ha), ih, List.filter_cons_of_neg ha]

theorem insertionSort_of_forall {α : Type} (r : α → α → Prop) [DecidableRel r]
    (h : ∀ a b, r a b) (l : List α) : l.insertionSort r = l := by
  induction l with
  | nil => rfl
  | cons a l ih =>
    simp only [List.insertionSort, ih]
    cases l with
    | nil => rfl
    | cons b m => simp [List.orderedInsert, h a b]

/-! ## Lemmas on the comparator -/

theorem rowMatches_iff (H : Host) (query : Str) (row : Row) :
    rowMatches H (H.toLowerCase query) row = true ↔ matchesQuery H query row := by
  simp [rowMatches, matchesQuery, SEARCH_COLUMNS]

theorem COLUMN_TYPES_eq_none_iff (c : Int) :
    COLUMN_TYPES c = some ColumnType.none ↔ c = 7 := by
  unfold COLUMN_TYPES
  constructor
  · intro h
    repeat' split at h
    all_goals first
      | assumption
      | simp at h
  · intro h
    subst h
    rfl

theorem isSortable_iff (c : Int) : isSortable c ↔ 0 ≤ c ∧ c ≤ 6 := by
  unfold isSortable COLUMN_TYPES
  constructor
  · intro h
    repeat' split at h
    all_goals first
      | omega
      | simp at h
  · rintro ⟨h0, h6⟩
    have : c = 0 ∨ c = 1 ∨ c = 2 ∨ c = 3 ∨ c = 4 ∨ c = 5 ∨ c = 6 := by omega
    rcases this with h | h | h | h | h | h | h <;> subst h <;> simp

theorem length_scanLine (line : Str) (inQuotes : Bool) (cur : Str) (row : Row) :
    row.length + 1 ≤ (scanLine line inQuotes cur row).length := by
  induction line, inQuotes, cur, row using scanLine.induct with
  | case1 x cur row => simp [scanLine]
  | case2 rest cur row ih => rw [scanLine.eq_2]; exact ih
  | case3 rest inQuotes cur row h ih => rw [scanLine.eq_3 _ _ _ _ h]; exact ih
  | case4 rest cur row ih =>
    rw [scanLine.eq_4]
    simp only [List.length_append, List.length_singleton] at ih
    omega
  | case5 c rest inQuotes cur row h1 h2 h3 ih => rw [scanLine.eq_5 _ _ _ _ _ h2 h1 h3]; exact ih

theorem length_of_mem_parseCSV (text : Str) (row : Row) (h : row ∈ parseCSV text) :
    1 ≤ row.length := by
  unfold parseCSV at h
  rw [foldl_lines, List.nil_append, List.mem_map] at h
  obtain ⟨line, _, rfl⟩ := h
  have := length_scanLine line false [] []
  simpa using this

/-! ## Lemmas on digit strings -/

theorem not_isWhiteSpace_of_isDigit (c : Char) (h : isDigit c = true) :
    isWhiteSpace c = false := by
  simp only [isDigit, decide_eq_true_eq] at h
  simp only [isWhiteSpace, Bool.or_eq_false_iff, Bool.and_eq_false_iff, decide_eq_false_iff_not]
  omega

theorem trim_of_no_whiteSpace (f : Str) (h : ∀ c ∈ f, isWhiteSpace c = false) : trim f = f := by
  have hd : ∀ l : Str, (∀ c ∈ l, isWhiteSpace c = false) → l.dropWhile isWhiteSpace = l := by
    intro l hl
    cases l with
    | nil => rfl
    | cons c t =>
      exact List.dropWhile_cons_of_neg (by simp [hl c (List.mem_cons_self _ _)])
  unfold trim trimStart
  rw [hd f h, hd f.reverse (fun c hc => h c (List.mem_reverse.mp hc)), List.reverse_reverse]

theorem trim_of_digits (f : Str) (h : ∀ c ∈ f, isDigit c = true) : trim f = f :=
  trim_of_no_whiteSpace f (fun c hc => not_isWhiteSpace_of_isDigit c (h c hc))

theorem takeWhile_of_digits (f : Str) (h : ∀ c ∈ f, isDigit c = true) :
    f.takeWhile isDigit = f := List.takeWhile_eq_self_iff.mpr h

theorem dropWhile_of_digits (f : Str) (h : ∀ c ∈ f, isDigit c = true) :
    f.dropWhile isDigit = [] := List.dropWhile_eq_nil_iff.mpr h

theorem getFilteredData_sublist (H : Host) (s : State) :
    List.Sublist (getFilteredData H s).1 s.viesData := by
  unfold getFilteredData
  split
  · exact List.Sublist.refl _
  · exact List.filter_sublist _
theorem takeWhile_digits_append (d rest : Str) (hd : ∀ c ∈ d, isDigit c = true)
    (hr : rest.takeWhile isDigit = []) : (d ++ rest).takeWhile isDigit = d := by
  rw [List.takeWhile_append_of_pos hd, hr, List.append_nil]

theorem dropWhile_digits_append (d rest : Str) (hd : ∀ c ∈ d, isDigit c = true)
    (hr : rest.takeWhile isDigit = []) : (d ++ rest).dropWhile isDigit = rest := by
  rw [List.dropWhile_append_of_pos hd]
  have := List.takeWhile_append_dropWhile isDigit rest
  rw [hr, List.nil_append] at this
  exact this

theorem toUpper_of_isDigit (c : Char) (h : isDigit c = true) : c.toUpper = c := by
  simp only [isDigit, decide_eq_true_eq] at h
  unfold Char.toUpper
  simp only
  rw [if_neg (by omega)]

theorem toUpperCase_of_digits (d : Str) (hd : ∀ c ∈ d, isDigit c = true) :
    toUpperCase d = d := by
  unfold toUpperCase
  conv_rhs => rw [← List.map_id d]
  exact List.map_congr_left (fun c hc => toUpper_of_isDigit c (hd c hc))

theorem isGradeLetter_cases (c : Char) (h : isGradeLetter c = true) :
    c = 'A' ∨ c = 'B' ∨ c = 'C' ∨ c = 'a' ∨ c = 'b' ∨ c = 'c' := by
  simpa [isGradeLetter, or_assoc] using h

theorem letterRank_bounds (l : Option Char) : 0 ≤ letterRank l ∧ letterRank l ≤ 3 := by
  cases l with
  | none => simp [letterRank]
  | some c =>
    simp only [letterRank]
    split
    · omega
    · split <;> omega

theorem plusFlag_cases (p : Bool) : plusFlag p = 0 ∨ plusFlag p = 1 := by
  cases p <;> simp [plusFlag]

/-! ## Lemmas on dates -/

theorem splitOnChar_of_not_mem (sep : Char) (a : Str) (h : sep ∉ a) :
    splitOnChar sep a = [a] := by
  induction a with
  | nil => rfl
  | cons x a ih =>
    have hx : x ≠ sep := fun e => h (by simp [e])
    rw [splitOnChar, if_neg hx, ih (fun e => h (List.mem_cons_of_mem _ e))]
    rfl

theorem splitOnChar_append_sep (sep : Char) (a b : Str) (h : sep ∉ a) :
    splitOnChar sep (a ++ sep :: b) = a :: splitOnChar sep b := by
  induction a with
  | nil => simp [splitOnChar]
  | cons x a ih =>
    have hx : x ≠ sep := fun e => h (by simp [e])
    rw [List.cons_append, splitOnChar, if_neg hx, ih (fun e => h (List.mem_cons_of_mem _ e))]
    rfl

theorem slash_not_mem_digits (f : Str) (h : ∀ c ∈ f, isDigit c = true) : '/' ∉ f :=
  fun hm => absurd (h _ hm) (by decide)

theorem dayFromYear_bounds (y : Int) (h1 : 1970 ≤ y) (h2 : y ≤ 275759) :
    0 ≤ dayFromYear y ∧ dayFromYear y ≤ 99999379 ∧ (1970 < y → 365 ≤ dayFromYear y) := by
  unfold dayFromYear
  omega

theorem daysBeforeMonth_bounds (m : Int) (leap : Bool) (h1 : 1 ≤ m) (h2 : m ≤ 12) :
    0 ≤ daysBeforeMonth (m - 1) leap ∧ daysBeforeMonth (m - 1) leap ≤ 335 ∧
    (1 < m → 31 ≤ daysBeforeMonth (m - 1) leap) := by
  have : m = 1 ∨ m = 2 ∨ m = 3 ∨ m = 4 ∨ m = 5 ∨ m = 6 ∨ m = 7 ∨ m = 8 ∨ m = 9 ∨ m = 10 ∨
      m = 11 ∨ m = 12 := by omega
  rcases this with h | h | h | h | h | h | h | h | h | h | h | h <;> subst h <;>
    cases leap <;> decide

theorem daysInMonth_le (y m : Int) : daysInMonth y m ≤ 31 := by
  unfold daysInMonth
  split
  · split <;> omega
  · split <;> omega


/-! ## Lemmas on binary64 rounding -/

theorem log2Fuel_spec (fuel n : Nat) (hf : n ≤ fuel) (hn : n ≠ 0) :
    2 ^ log2Fuel fuel n ≤ n ∧ n < 2 ^ (log2Fuel fuel n + 1) := by
  induction fuel generalizing n with
  | zero => omega
  | succ fuel ih =>
    unfold log2Fuel
    by_cases h2 : n < 2
    · rw [if_pos h2]
      constructor <;> simp <;> omega
    · rw [if_neg h2]
      have hih := ih (n / 2) (by omega) (by omega)
      constructor
      · rw [pow_succ]
        have := hih.1
        omega
      · rw [pow_succ]
        have := hih.2
        omega

theorem log2_spec (n : Nat) (hn : n ≠ 0) : 2 ^ log2 n ≤ n ∧ n < 2 ^ (log2 n + 1) :=
  log2Fuel_spec n n (Nat.le_refl n) hn

theorem log2_lt_of_lt_pow (n k : Nat) (hn : n ≠ 0) (h : n < 2 ^ k) : log2 n < k := by
  by_contra hk
  have h1 := (log2_spec n hn).1
  have h2 : 2 ^ k ≤ 2 ^ log2 n := Nat.pow_le_pow_right (by omega) (by omega)
  omega

theorem floorLog2_one_le (p : Nat) : floorLog2 p 1 ≤ log2 p := by
  have h1 : log2 1 = 0 := by decide
  unfold floorLog2
  simp only [h1]
  split <;> omega

theorem roundHalfEven_one (a : Nat) : roundHalfEven a 1 = a := by
  unfold roundHalfEven
  simp [Nat.mod_one]

theorem le_roundHalfEven (a b : Nat) : a / b ≤ roundHalfEven a b := by
  unfold roundHalfEven
  split
  · exact Nat.le_refl _
  · split
    · omega
    · split <;> omega

theorem lowestTerms_mul_pow (x j : Nat) : lowestTerms (x * 2 ^ j) j = (x, 0) := by
  induction j with
  | zero => simp [lowestTerms]
  | succ j ih =>
    have e : x * 2 ^ (j + 1) = x * 2 ^ j * 2 := by rw [pow_succ, Nat.mul_assoc]
    have h1 : x * 2 ^ (j + 1) % 2 = 0 := by rw [e]; exact Nat.mul_mod_left _ _
    have h2 : x * 2 ^ (j + 1) / 2 = x * 2 ^ j := by
      rw [e]; exact Nat.mul_div_cancel _ (by omega)
    rw [lowestTerms, if_pos h1, h2, ih]

theorem roundPositive_of_ulp_nonpos (p : Nat)
    (hu : max (floorLog2 p 1 - 52) (-1074) ≤ 0) : roundPositive p 1 = some (p, 0) := by
  unfold roundPositive
  simp only
  generalize max (floorLog2 p 1 - 52) (-1074) = u at hu
  have hu0 : u.toNat = 0 := by omega
  have hif : ¬ (971 < (if roundHalfEven (p * 2 ^ (-u).toNat) (1 * 2 ^ u.toNat) = 2 ^ 53
      then u + 1 else u)) := by
    split <;> omega
  rw [if_neg hif, hu0]
  simp only [pow_zero, mul_one, roundHalfEven_one, lowestTerms_mul_pow]

theorem roundPositive_exact (p : Nat) (hp : p ≠ 0) (h : p < 2 ^ 53) :
    roundPositive p 1 = some (p, 0) := by
  apply roundPositive_of_ulp_nonpos
  have h1 := floorLog2_one_le p
  have h2 := log2_lt_of_lt_pow p 53 hp h
  omega

theorem roundPositive_int (p : Nat) (hp : p ≠ 0) :
    roundPositive p 1 = none ∨ ∃ v, 0 < v ∧ roundPositive p 1 = some (v, 0) := by
  by_cases hu : max (floorLog2 p 1 - 52) (-1074) ≤ 0
  · exact Or.inr ⟨p, by omega, roundPositive_of_ulp_nonpos p hu⟩
  · have hle := floorLog2_one_le p
    have hspec := (log2_spec p hp).1
    unfold roundPositive
    simp only
    generalize hgen : max (floorLog2 p 1 - 52) (-1074) = u at hu
    have hneg : (-u).toNat = 0 := by omega
    have hul : u.toNat ≤ log2 p := by omega
    have hpow : 2 ^ u.toNat ≤ p :=
      Nat.le_trans (Nat.pow_le_pow_right (by omega) hul) hspec
    by_cases hover : 971 < (if roundHalfEven (p * 2 ^ (-u).toNat) (1 * 2 ^ u.toNat) = 2 ^ 53
        then u + 1 else u)
    · rw [if_pos hover]
      exact Or.inl rfl
    · rw [if_neg hover]
      refine Or.inr ⟨roundHalfEven (p * 2 ^ (-u).toNat) (1 * 2 ^ u.toNat) * 2 ^ u.toNat, ?_, ?_⟩
      · have hm := le_roundHalfEven (p * 2 ^ (-u).toNat) (1 * 2 ^ u.toNat)
        rw [hneg, pow_zero, mul_one, one_mul] at hm ⊢
        have hdiv : 1 ≤ p / 2 ^ u.toNat :=
          (Nat.one_le_div_iff (Nat.two_pow_pos _)).mpr hpow
        exact Nat.mul_pos (by omega) (Nat.two_pow_pos _)
      · rw [hneg, lowestTerms]

theorem round_exact (n : Int) (h : n.natAbs < 2 ^ 53) : Number.round n 1 = Number.fin n 0 := by
  unfold Number.round
  by_cases h0 : n = 0
  · simp [h0]
  · rw [if_neg h0, roundPositive_exact n.natAbs (by omega) h]
    simp only
    congr 1
    split <;> omega

theorem ofInt_exact (n : Int) (h : n.natAbs < 2 ^ 53) : Number.ofInt n = Number.fin n 0 :=
  round_exact n h

theorem IsNonnegKey.isKey {x : Number} (h : IsNonnegKey x) : IsKey x := by
  rcases h with h | ⟨m, _, h⟩
  · exact Or.inl h
  · exact Or.inr ⟨m, h⟩

theorem round_pos (n : Int) (hn : 0 < n) :
    Number.round n 1 = Number.inf false ∨ ∃ v : Int, 0 < v ∧ Number.round n 1 = Number.fin v 0 := by
  unfold Number.round
  rw [if_neg (by omega)]
  rcases roundPositive_int n.natAbs (by omega) with h | ⟨v, hv, h⟩
  · rw [h]
    simp only
    left
    congr 1
    simp
    omega
  · rw [h]
    simp only
    right
    exact ⟨v, by omega, by rw [if_neg (by omega)]⟩

theorem round_neg (n : Int) (d : Nat) : Number.round (-n) d = (Number.round n d).neg := by
  unfold Number.round
  by_cases h0 : n = 0
  · simp [h0, Number.neg]
  · rw [if_neg (by omega), if_neg h0, Int.natAbs_neg]
    cases roundPositive n.natAbs d with
    | none =>
      simp only [Number.neg]
      congr 1
      by_cases hn : n < 0
      · simp [hn]; omega
      · simp [hn]; omega
    | some r =>
      obtain ⟨m, k⟩ := r
      simp only [Number.neg]
      congr 1
      by_cases hn : n < 0
      · rw [if_pos hn, if_neg (by omega)]; omega
      · rw [if_neg hn, if_pos (by omega)]

theorem round_nonneg (n : Int) (hn : 0 ≤ n) : IsNonnegKey (Number.round n 1) := by
  by_cases h0 : n = 0
  · subst h0
    exact Or.inr ⟨0, by omega, rfl⟩
  · rcases round_pos n (by omega) with h | ⟨v, hv, h⟩
    · exact Or.inl h
    · exact Or.inr ⟨v, by omega, h⟩

theorem isPositive_round (n : Int) : (Number.round n 1).isPositive = true ↔ 0 < n := by
  rcases lt_trichotomy n 0 with hn | hn | hn
  · have h := round_pos (-n) (by omega)
    rw [round_neg] at h
    constructor
    · intro hp
      rcases h with h | ⟨v, hv, h⟩
      · cases hr : Number.round n 1 with
        | nan => rw [hr] at hp; simp [Number.isPositive] at hp
        | inf s => rw [hr] at h hp; cases s <;> simp_all [Number.neg, Number.isPositive]
        | fin m k => rw [hr] at h; simp [Number.neg] at h
      · cases hr : Number.round n 1 with
        | nan => rw [hr] at hp; simp [Number.isPositive] at hp
        | inf s => rw [hr] at h; simp [Number.neg] at h
        | fin m k =>
          rw [hr] at h hp
          simp only [Number.neg, Number.fin.injEq] at h
          simp only [Number.isPositive, decide_eq_true_eq] at hp
          omega
    · omega
  · subst hn
    simp [Number.round, Number.isPositive]
  · rcases round_pos n hn with h | ⟨v, hv, h⟩
    · simp [h, Number.isPositive, hn]
    · simp [h, Number.isPositive, hn, hv]

theorem isPositive_neg_round (n : Int) : (Number.round n 1).neg.isPositive = true ↔ n < 0 := by
  rw [← round_neg, isPositive_round]
  omega

/-! ## Lemmas on keys -/

theorem add_fin_int (a b : Int) :
    (Number.fin a 0).add (Number.fin b 0) = Number.round (a + b) 1 := by
  simp [Number.add]

theorem sub_fin_int (a b : Int) :
    (Number.fin a 0).sub (Number.fin b 0) = Number.round (a - b) 1 := by
  simp [Number.sub, Number.neg, Number.add, sub_eq_add_neg]

theorem mul_fin_int (a b : Int) :
    (Number.fin a 0).mul (Number.fin b 0) = Number.round (a * b) 1 := by
  simp [Number.mul]

theorem IsNonnegKey.add_fin {x : Number} (h : IsNonnegKey x) (b : Int) (hb : 0 ≤ b) :
    IsNonnegKey (x.add (Number.fin b 0)) := by
  rcases h with h | ⟨m, hm, h⟩
  · subst h
    exact Or.inl rfl
  · subst h
    rw [add_fin_int]
    exact round_nonneg _ (by omega)

theorem IsNonnegKey.mul_fin {x : Number} (h : IsNonnegKey x) (b : Int) (hb : 0 < b) :
    IsNonnegKey (x.mul (Number.fin b 0)) := by
  rcases h with h | ⟨m, hm, h⟩
  · subst h
    left
    simp only [Number.mul]
    rw [if_neg (by omega)]
    simp
    omega
  · subst h
    rw [mul_fin_int]
    exact round_nonneg _ (Int.mul_nonneg hm (by omega))

theorem key_le_iff_not_isPositive_sub {x y : Number} (hx : IsKey x) (hy : IsKey y) :
    x ≤ y ↔ ¬ ((x.sub y).isPositive = true) := by
  rcases hx with hx | ⟨a, hx⟩ <;> rcases hy with hy | ⟨b, hy⟩ <;> subst hx <;> subst hy
  · simp [LE.le, Number.le, Number.lt, Number.sub, Number.neg, Number.add, Number.isPositive]
  · simp [LE.le, Number.le, Number.lt, Number.sub, Number.neg, Number.add, Number.isPositive]
  · simp [LE.le, Number.le, Number.lt, Number.sub, Number.neg, Number.add, Number.isPositive]
  · rw [sub_fin_int, isPositive_round]
    simp only [LE.le, Number.le, Number.lt, pow_zero, mul_one, Number.fin.injEq, and_true, ne_eq,
      not_false_eq_true, reduceCtorEq]
    omega

theorem key_ge_iff_not_isPositive_neg_sub {x y : Number} (hx : IsKey x) (hy : IsKey y) :
    y ≤ x ↔ ¬ ((x.sub y).neg.isPositive = true) := by
  rcases hx with hx | ⟨a, hx⟩ <;> rcases hy with hy | ⟨b, hy⟩ <;> subst hx <;> subst hy
  · simp [LE.le, Number.le, Number.lt, Number.sub, Number.neg, Number.add, Number.isPositive]
  · simp [LE.le, Number.le, Number.lt, Number.sub, Number.neg, Number.add, Number.isPositive]
  · simp [LE.le, Number.le, Number.lt, Number.sub, Number.neg, Number.add, Number.isPositive]
  · rw [sub_fin_int, isPositive_neg_round]
    simp only [LE.le, Number.le, Number.lt, pow_zero, mul_one, Number.fin.injEq, and_true, ne_eq,
      not_false_eq_true, reduceCtorEq]
    omega

theorem key_le_total {x y : Number} (hx : IsKey x) (hy : IsKey y) : x ≤ y ∨ y ≤ x := by
  rcases hx with hx | ⟨a, hx⟩ <;> rcases hy with hy | ⟨b, hy⟩ <;> subst hx <;> subst hy
  all_goals
    simp only [LE.le, Number.le, Number.lt, pow_zero, mul_one, Number.fin.injEq, and_true, ne_eq,
      not_false_eq_true, reduceCtorEq]
  all_goals first
    | omega
    | simp

theorem key_le_trans {x y z : Number} (hx : IsKey x) (hy : IsKey y) (hz : IsKey z) :
    x ≤ y → y ≤ z → x ≤ z := by
  rcases hx with hx | ⟨a, hx⟩ <;> rcases hy with hy | ⟨b, hy⟩ <;> rcases hz with hz | ⟨c, hz⟩ <;>
    subst hx <;> subst hy <;> subst hz
  all_goals
    simp only [LE.le, Number.le, Number.lt, pow_zero, mul_one, Number.fin.injEq, and_true, ne_eq,
      not_false_eq_true, reduceCtorEq]
  all_goals first
    | omega
    | simp

theorem key_le_refl {x : Number} (hx : IsKey x) : x ≤ x := by
  rcases hx with hx | ⟨a, hx⟩ <;> subst hx <;> simp [LE.le, Number.le]

theorem inDirection_key_total (d : Str) {x y : Number} (hx : IsKey x) (hy : IsKey y) :
    inDirection d x y ∨ inDirection d y x := by
  unfold inDirection
  split
  · exact key_le_total hx hy
  · exact key_le_total hy hx

theorem inDirection_key_trans (d : Str) {x y z : Number} (hx : IsKey x) (hy : IsKey y)
    (hz : IsKey z) : inDirection d x y → inDirection d y z → inDirection d x z := by
  unfold inDirection
  split
  · exact key_le_trans hx hy hz
  · exact fun h1 h2 => key_le_trans hz hy hx h2 h1

theorem not_inDirection_key (d : Str) {x y : Number} (hx : IsKey x) :
    ¬ inDirection d x y → x ≠ y := by
  intro h e
  subst e
  apply h
  unfold inDirection
  split <;> exact key_le_refl hx

theorem inDirection_key_iff (d : Str) {x y : Number} (hx : IsKey x) (hy : IsKey y) :
    inDirection d x y ↔
      ¬ ((if d = "asc".toList then x.sub y else (x.sub y).neg).isPositive = true) := by
  unfold inDirection
  by_cases hd : d = "asc".toList
  · rw [if_pos hd, if_pos hd]
    exact key_le_iff_not_isPositive_sub hx hy
  · rw [if_neg hd, if_neg hd]
    exact key_ge_iff_not_isPositive_neg_sub hx hy

/-! ## Lemmas on reading numbers -/

theorem not_infinity_prefix_of_digits (f : Str) (h : ∀ c ∈ f, isDigit c = true) :
    ¬ "Infinity".toList <+: f := by
  rintro ⟨t, ht⟩
  have hI : 'I' ∈ f := by rw [← ht]; simp
  exact absurd (h _ hI) (by decide)

theorem scanUnsignedDecimal_of_digits (f : Str) (h : isDecimalInteger f) :
    scanUnsignedDecimal f = some (Number.ofInt (digitsValue f), []) := by
  unfold scanUnsignedDecimal
  rw [if_neg (not_infinity_prefix_of_digits f h.2)]
  simp [takeWhile_of_digits f h.2, dropWhile_of_digits f h.2, h.1, scanExponent, Number.ofInt]

theorem scanSignedDecimal_of_digits (f : Str) (h : isDecimalInteger f) :
    scanSignedDecimal f = some (Number.ofInt (digitsValue f), []) := by
  unfold scanSignedDecimal
  split
  · rename_i r
    exact absurd (h.2 '-' (List.mem_cons_self _ _)) (by decide)
  · rename_i r
    exact absurd (h.2 '+' (List.mem_cons_self _ _)) (by decide)
  · exact scanUnsignedDecimal_of_digits f h

theorem parseFloat_of_digits (f : Str) (h : isDecimalInteger f) :
    parseFloat (trim f) = Number.ofInt (digitsValue f) := by
  have ht : trimStart f = f := by
    cases f with
    | nil => rfl
    | cons c t =>
      exact List.dropWhile_cons_of_neg
        (by simp [not_isWhiteSpace_of_isDigit c (h.2 c (List.mem_cons_self _ _))])
  rw [trim_of_digits f h.2]
  unfold parseFloat
  rw [ht, scanSignedDecimal_of_digits f h]

theorem nonDecimalLiteral_of_digits (f : Str) (h : ∀ c ∈ f, isDigit c = true) :
    nonDecimalLiteral f = none := by
  unfold nonDecimalLiteral
  split
  · rename_i x ds
    have hx : isDigit x = true := h x (by simp)
    have h1 : ¬ (x = 'x' ∨ x = 'X') := by
      rintro (e | e) <;> subst e <;> exact absurd hx (by decide)
    have h2 : ¬ (x = 'o' ∨ x = 'O') := by
      rintro (e | e) <;> subst e <;> exact absurd hx (by decide)
    have h3 : ¬ (x = 'b' ∨ x = 'B') := by
      rintro (e | e) <;> subst e <;> exact absurd hx (by decide)
    rw [if_neg h1, if_neg h2, if_neg h3]
  · rfl

theorem toNumber_of_digits (f : Str) (h : isDecimalInteger f) :
    toNumber f = Number.ofInt (digitsValue f) := by
  unfold toNumber
  rw [trim_of_digits f h.2, if_neg h.1, nonDecimalLiteral_of_digits f h.2,
    scanSignedDecimal_of_digits f h]

theorem ofInt_nat_isNonnegKey (n : Nat) : IsNonnegKey (Number.ofInt n) :=
  round_nonneg n (by omega)

theorem orZero_of_isKey {x : Number} (h : IsKey x) : x.orZero = x := by
  rcases h with h | ⟨m, h⟩ <;> subst h <;> rfl

/-! ## Lemmas on the grade key -/

theorem matchGrade_groups (g m1 m2 m3 : Str) (h : matchGrade g = some (m1, m2, m3)) :
    (m2 = [] ∨ ∃ l, m2 = [l] ∧ isGradeLetter l = true) ∧ (m3 = [] ∨ m3 = ['+']) := by
  unfold matchGrade at h
  simp only at h
  split at h
  · exact absurd h (by simp)
  · split at h
    · simp only [Option.some.injEq, Prod.mk.injEq] at h
      obtain ⟨_, h2, h3⟩ := h
      subst h2; subst h3
      exact ⟨Or.inl rfl, Or.inl rfl⟩
    · simp only [Option.some.injEq, Prod.mk.injEq] at h
      obtain ⟨_, h2, h3⟩ := h
      subst h2; subst h3
      exact ⟨Or.inl rfl, Or.inr rfl⟩
    · split at h
      · simp only [Option.some.injEq, Prod.mk.injEq] at h
        obtain ⟨_, h2, h3⟩ := h
        subst h2; subst h3
        exact ⟨Or.inr ⟨_, rfl, by assumption⟩, Or.inl rfl⟩
      · exact absurd h (by simp)
    · split at h
      · simp only [Option.some.injEq, Prod.mk.injEq] at h
        obtain ⟨_, h2, h3⟩ := h
        subst h2; subst h3
        exact ⟨Or.inr ⟨_, rfl, by assumption⟩, Or.inr rfl⟩
      · exact absurd h (by simp)
    · exact absurd h (by simp)

theorem gradeLetterValue_cases (m2 : Str)
    (h : m2 = [] ∨ ∃ l, m2 = [l] ∧ isGradeLetter l = true) :
    ∃ L : Int, 0 ≤ L ∧ gradeLetterValue m2 = Number.fin L 0 := by
  rcases h with h | ⟨l, h, hl⟩
  · subst h
    exact ⟨0, by omega, by decide⟩
  · subst h
    rcases isGradeLetter_cases l hl with e | e | e | e | e | e <;> subst e
    · exact ⟨10, by omega, by decide⟩
    · exact ⟨20, by omega, by decide⟩
    · exact ⟨30, by omega, by decide⟩
    · exact ⟨10, by omega, by decide⟩
    · exact ⟨20, by omega, by decide⟩
    · exact ⟨30, by omega, by decide⟩

theorem gradeToSortValue_isKey (g : Str) : IsKey (gradeToSortValue g) := by
  unfold gradeToSortValue
  split
  · exact Or.inr ⟨-1, by decide⟩
  · split
    · exact Or.inr ⟨0, by decide⟩
    · rename_i m1 m2 m3 hm
      obtain ⟨h2, h3⟩ := matchGrade_groups _ _ _ _ hm
      obtain ⟨L, hL, hLv⟩ := gradeLetterValue_cases m2 h2
      have e100 : Number.ofInt 100 = Number.fin 100 0 := by decide
      have e0 : Number.ofInt 0 = Number.fin 0 0 := by decide
      have e5 : Number.ofInt 5 = Number.fin 5 0 := by decide
      simp only [hLv, e100]
      have hnum : IsNonnegKey ((parseInt m1).mul (Number.fin 100 0)) :=
        (ofInt_nat_isNonnegKey _).mul_fin 100 (by omega)
      apply IsNonnegKey.isKey
      rcases h3 with h3 | h3 <;> subst h3
      · rw [if_pos rfl, e0]
        exact (hnum.add_fin L hL).add_fin 0 (by omega)
      · rw [if_neg (by simp), e5]
        exact (hnum.add_fin L hL).add_fin 5 (by omega)

theorem notAfter_grade (H : Host) (d : Str) (a b : Row) :
    notAfter (compareRows H (some ColumnType.grade) 2 d) a b
      ↔ inDirection d (gradeKey a) (gradeKey b) :=
  (inDirection_key_iff d (gradeToSortValue_isKey _) (gradeToSortValue_isKey _)).symm

theorem notAfter_numeric (H : Host) (d : Str) (a b : Row)
    (ha : isDecimalInteger ((getField a 0).getD []))
    (hb : isDecimalInteger ((getField b 0).getD [])) :
    notAfter (compareRows H (some ColumnType.numeric) 0 d) a b
      ↔ inDirection d (col0Number a) (col0Number b) := by
  have hka : IsKey (col0Number a) := (ofInt_nat_isNonnegKey _).isKey
  have hkb : IsKey (col0Number b) := (ofInt_nat_isNonnegKey _).isKey
  rw [inDirection_key_iff d hka hkb]
  unfold notAfter compareRows
  simp only [parseFloat_of_digits _ ha, parseFloat_of_digits _ hb]
  unfold col0Number col0Value at hka hkb ⊢
  rw [orZero_of_isKey hka, orZero_of_isKey hkb]

theorem notAfter_unregistered (H : Host) (c : Int) (d : Str) (a b : Row) :
    notAfter (compareRows H Option.none c d) a b := by
  have e0 : Number.ofInt 0 = Number.fin 0 0 := by decide
  unfold notAfter compareRows
  by_cases hd : d = "asc".toList
  · simp [hd, e0, Number.isPositive]
  · simp [hd, e0, Number.isPositive, Number.neg]

theorem gradeToSortValue_gradeToken (d : Str) (l : Option Char) (p : Bool)
    (hd : isDecimalInteger d) (hl : ∀ c, l = some c → isGradeLetter c = true) :
    gradeToSortValue (gradeToken d l p)
      = (((parseInt d).mul (Number.fin 100 0)).add (Number.fin (10 * letterRank l) 0)).add
          (Number.fin (5 * plusFlag p) 0) := by
  obtain ⟨c, t, rfl⟩ := List.exists_cons_of_ne_nil hd.1
  have hc : isDigit c = true := hd.2 c (List.mem_cons_self _ _)
  have hne : ¬ (gradeToken (c :: t) l p = [] ∨ gradeToken (c :: t) l p = ['-']) := by
    simp only [gradeToken, List.cons_append]
    intro h
    rcases h with h | h
    · simp at h
    · have : c = '-' := by simpa using (List.cons.inj h).1
      subst this
      exact absurd hc (by decide)
  have hsuf : (l = none ∨ l = some 'A' ∨ l = some 'B' ∨ l = some 'C' ∨ l = some 'a' ∨
      l = some 'b' ∨ l = some 'c') := by
    cases l with
    | none => simp
    | some x =>
      rcases isGradeLetter_cases x (hl x rfl) with h | h | h | h | h | h <;> simp [h]
  have htrim : trim (gradeToken (c :: t) l p) = gradeToken (c :: t) l p := by
    apply trim_of_no_whiteSpace
    intro x hx
    simp only [gradeToken, List.mem_append] at hx
    rcases hx with hx | hx | hx
    · exact not_isWhiteSpace_of_isDigit x (hd.2 x hx)
    · rcases hsuf with h | h | h | h | h | h | h <;> subst h <;> simp at hx <;> subst hx <;> decide
    · cases p <;> simp at hx
      subst hx; decide
  have hup : toUpperCase (gradeToken (c :: t) l p)
      = (c :: t) ++ toUpperCase (l.toList ++ (if p then ['+'] else [])) := by
    unfold gradeToken
    rw [toUpperCase, List.map_append, ← toUpperCase, ← toUpperCase, toUpperCase_of_digits _ hd.2]
  unfold gradeToSortValue
  rw [if_neg hne, htrim, hup]
  have hm : ∀ rest : Str, rest.takeWhile isDigit = [] →
      matchGrade ((c :: t) ++ rest) =
        (match rest with
          | [] => some (c :: t, [], [])
          | ['+'] => some (c :: t, [], ['+'])
          | [l] => if isGradeLetter l then some (c :: t, [l], []) else none
          | [l, '+'] => if isGradeLetter l then some (c :: t, [l], ['+']) else none
          | _ => none) := by
    intro rest hr
    unfold matchGrade
    rw [takeWhile_digits_append _ _ hd.2 hr, dropWhile_digits_append _ _ hd.2 hr,
      if_neg (by simp)]
    rfl
  have e100 : Number.ofInt 100 = Number.fin 100 0 := by decide
  have e0 : Number.ofInt 0 = Number.fin 0 0 := by decide
  have e5 : Number.ofInt 5 = Number.fin 5 0 := by decide
  have eN : gradeLetterValue [] = Number.fin 0 0 := by decide
  have eA : gradeLetterValue ['A'] = Number.fin 10 0 := by decide
  have eB : gradeLetterValue ['B'] = Number.fin 20 0 := by decide
  have eC : gradeLetterValue ['C'] = Number.fin 30 0 := by decide
  rcases hsuf with h | h | h | h | h | h | h <;> subst h <;> cases p
  all_goals
    rw [hm _ (by decide)]
    simp [toUpperCase, letterRank, plusFlag, isGradeLetter, e100, e0, e5, eN, eA, eB, eC]

theorem gradeToSortValue_gradeToken_exact (d : Str) (l : Option Char) (p : Bool)
    (hd : isDecimalInteger d) (hl : ∀ c, l = some c → isGradeLetter c = true)
    (hb : digitsValue d ≤ 90071992547409) :
    gradeToSortValue (gradeToken d l p)
      = Number.fin (100 * (digitsValue d : Int) + 10 * letterRank l + 5 * plusFlag p) 0 := by
  have h53 : (2 : Nat) ^ 53 = 9007199254740992 := by norm_num
  have hr := letterRank_bounds l
  have hp := plusFlag_cases p
  rw [gradeToSortValue_gradeToken d l p hd hl, parseInt,
    ofInt_exact _ (by rw [h53]; omega), mul_fin_int,
    round_exact _ (by rw [h53]; omega), add_fin_int,
    round_exact _ (by rw [h53]; omega), add_fin_int,
    round_exact _ (by rw [h53]; omega)]
  congr 1
  omega

theorem gradeToSortValue_gradeToken_nonneg (d : Str) (l : Option Char) (p : Bool)
    (hd : isDecimalInteger d) (hl : ∀ c, l = some c → isGradeLetter c = true) :
    IsNonnegKey (gradeToSortValue (gradeToken d l p)) := by
  have hr := letterRank_bounds l
  have hp := plusFlag_cases p
  rw [gradeToSortValue_gradeToken d l p hd hl]
  exact (((ofInt_nat_isNonnegKey _).mul_fin 100 (by omega)).add_fin _ (by omega)).add_fin _
    (by omega)

/-! ## Lemmas on the date key -/

theorem dateToSortValue_dateToken (H : Host) (D M Y : Str)
    (hD : isDecimalInteger D) (hM : isDecimalInteger M) (hY : isDecimalInteger Y) :
    dateToSortValue H (dateToken D M Y)
      = newDateGetTime H (Number.ofInt (digitsValue Y))
          ((Number.ofInt (digitsValue M)).sub (Number.ofInt 1)) (Number.ofInt (digitsValue D)) := by
  obtain ⟨c, t, rfl⟩ := List.exists_cons_of_ne_nil hD.1
  have hc : isDigit c = true := hD.2 c (List.mem_cons_self _ _)
  have hne : ¬ (dateToken (c :: t) M Y = [] ∨ dateToken (c :: t) M Y = ['-']) := by
    simp only [dateToken, List.cons_append]
    intro h
    rcases h with h | h
    · simp at h
    · have : c = '-' := by simpa using (List.cons.inj h).1
      subst this
      exact absurd hc (by decide)
  have htrim : trim (dateToken (c :: t) M Y) = dateToken (c :: t) M Y := by
    apply trim_of_no_whiteSpace
    intro x hx
    simp only [dateToken, List.mem_append, List.mem_cons] at hx
    rcases hx with (hx | hx) | hx | hx | hx | hx
    · subst hx; exact not_isWhiteSpace_of_isDigit x hc
    · exact not_isWhiteSpace_of_isDigit x (hD.2 x (List.mem_cons_of_mem _ hx))
    · subst hx; decide
    · exact not_isWhiteSpace_of_isDigit x (hM.2 x hx)
    · subst hx; decide
    · exact not_isWhiteSpace_of_isDigit x (hY.2 x hx)
  have hsplit : splitOnChar '/' (dateToken (c :: t) M Y) = [c :: t, M, Y] := by
    unfold dateToken
    rw [splitOnChar_append_sep _ _ _ (slash_not_mem_digits _ hD.2),
      splitOnChar_append_sep _ _ _ (slash_not_mem_digits _ hM.2),
      splitOnChar_of_not_mem _ _ (slash_not_mem_digits _ hY.2)]
  unfold dateToSortValue
  rw [if_neg hne, htrim, hsplit]
  simp only [toNumber_of_digits _ hD, toNumber_of_digits _ hM, toNumber_of_digits _ hY]

theorem newDateGetTime_of_valid (H : Host) (d m y : Nat)
    (hvalid : isValidDate d m y)
    (hafter : 1970 < y ∨ (y = 1970 ∧ (1 < m ∨ 1 < d)))
    (hmax : y ≤ 275759)
    (htz : ∀ t, -msPerDay < H.localTZA t ∧ H.localTZA t < msPerDay) :
    ∃ u, newDateGetTime H (Number.ofInt y) ((Number.ofInt m).sub (Number.ofInt 1))
          (Number.ofInt d) = Number.fin u 0 ∧ 0 < u ∧
      u = makeDay y (m - 1) d * msPerDay - H.localTZA (makeDay y (m - 1) d * msPerDay) := by
  obtain ⟨hm1, hm12, hd1, hdm⟩ := hvalid
  have hd31 := daysInMonth_le y m
  have hy : (1970 : Int) ≤ y := by omega
  have hdfy := dayFromYear_bounds y hy (by exact_mod_cast hmax)
  have hdbm := daysBeforeMonth_bounds m (isLeapYear y) hm1 hm12
  have hmk : makeDay y (m - 1) d
      = dayFromYear y + daysBeforeMonth (m - 1) (isLeapYear y) + d - 1 := by
    unfold makeDay
    have e1 : ((m : Int) - 1) / 12 = 0 := by omega
    have e2 : ((m : Int) - 1) % 12 = m - 1 := by omega
    simp only [e1, e2, add_zero]
  have hday : 1 ≤ makeDay y (m - 1) d ∧ makeDay y (m - 1) d ≤ 99999744 := by
    rw [hmk]
    constructor
    · rcases hafter with h | ⟨_, h | h⟩
      · have := hdfy.2.2 (by exact_mod_cast h)
        omega
      · have := hdbm.2.2 (by exact_mod_cast h)
        omega
      · omega
    · omega
  have htz1 := htz (makeDay y (m - 1) d * msPerDay)
  have hy99 : ¬ ((0 : Int) ≤ y ∧ (y : Int) ≤ 99) := by omega
  have h53 : (2 : Nat) ^ 53 = 9007199254740992 := by norm_num
  have e1 : Number.ofInt 1 = Number.fin 1 0 := by decide
  have ey : Number.ofInt y = Number.fin y 0 := ofInt_exact _ (by rw [h53]; omega)
  have em : (Number.ofInt m).sub (Number.ofInt 1) = Number.fin ((m : Int) - 1) 0 := by
    rw [ofInt_exact _ (by rw [h53]; omega), e1, sub_fin_int, round_exact _ (by rw [h53]; omega)]
  have ed : Number.ofInt d = Number.fin d 0 := ofInt_exact _ (by rw [h53]; omega)
  have hclip : -maxTime ≤ makeDay y (m - 1) d * msPerDay
        - H.localTZA (makeDay y (m - 1) d * msPerDay) ∧
      makeDay y (m - 1) d * msPerDay
        - H.localTZA (makeDay y (m - 1) d * msPerDay) ≤ maxTime := by
    unfold msPerDay maxTime at *
    omega
  refine ⟨makeDay y (m - 1) d * msPerDay - H.localTZA (makeDay y (m - 1) d * msPerDay), ?_, ?_, rfl⟩
  · rw [ey, em, ed]
    simp only [newDateGetTime, Number.trunc, pow_zero, Int.tdiv_one, if_neg hy99, if_pos hclip]
  · unfold msPerDay at *
    omega

theorem fin_lt_fin (a b : Int) : Number.fin a 0 < Number.fin b 0 ↔ a < b := by
  show a * 2 ^ 0 < b * 2 ^ 0 ↔ a < b
  simp

theorem fin_le_fin (a b : Int) : Number.fin a 0 ≤ Number.fin b 0 ↔ a ≤ b := by
  show (a * 2 ^ 0 < b * 2 ^ 0 ∨ (Number.fin a 0 = Number.fin b 0 ∧ Number.fin a 0 ≠ Number.nan))
    ↔ a ≤ b
  simp only [pow_zero, mul_one, Number.fin.injEq, and_true, ne_eq, not_false_eq_true,
    reduceCtorEq]
  omega

theorem fin_lt_inf (a : Int) : Number.fin a 0 < Number.inf false :=
  show false = false from rfl

theorem gradeKey_isKey (row : Row) : IsKey (gradeKey row) := gradeToSortValue_isKey _

theorem col0Number_isKey (row : Row) : IsKey (col0Number row) :=
  (ofInt_nat_isNonnegKey _).isKey

theorem inDirection_col0Number_iff (d : Str) (a b : Row)
    (ha : col0Value a < 2 ^ 53) (hb : col0Value b < 2 ^ 53) :
    inDirection d (col0Number a) (col0Number b)
      ↔ inDirection d (col0Value a) (col0Value b) := by
  have h53 : (2 : Int) ^ 53 = 9007199254740992 := by norm_num
  have h53n : (2 : Nat) ^ 53 = 9007199254740992 := by norm_num
  have hna : 0 ≤ col0Value a := by unfold col0Value; omega
  have hnb : 0 ≤ col0Value b := by unfold col0Value; omega
  rw [h53] at ha hb
  unfold col0Number inDirection
  rw [ofInt_exact _ (by rw [h53n]; omega), ofInt_exact _ (by rw [h53n]; omega)]
  split
  · exact fin_le_fin _ _
  · exact fin_le_fin _ _

/-! ## The CSV parser (C3, C4) -/

/-- C3: for every string `s` without a line feed, the text made of a double
quote, `s` with each double quote doubled, and a double quote parses to exactly
one row with exactly one field, which is `s` trimmed; commas inside `s` do not
split the field. -/
theorem parseCSV_quoteField (s : Str) (h : '\n' ∉ s) :
    parseCSV (quoteField s) = [[trim s]] := by
  have hlf : '\n' ∉ quoteField s := by
    intro hm
    simp only [quoteField, List.mem_cons, List.mem_append, List.mem_singleton] at hm
    rcases hm with hm | hm | hm
    · exact absurd hm (by decide)
    · exact h (mem_of_mem_doubleQuotes _ _ hm)
    · exact absurd hm (by decide)
  have hnb : trim (quoteField s) ≠ [] := by
    intro e
    have := (trim_eq_nil_iff _).mp e '"' (by simp [quoteField])
    exact absurd this (by decide)
  unfold parseCSV
  rw [splitLines_of_no_lf _ hlf]
  simp only [List.foldl_cons, List.foldl_nil, if_neg hnb, List.nil_append]
  unfold quoteField
  rw [scanLine.eq_3 _ _ _ _ (by simp), Bool.not_false, scanLine_quoted]
  simp

/-- C3, the spec's example: the quoted line for `Wall, "North" Face` parses to
that single field. -/
theorem parseCSV_quoteField_witness :
    '\n' ∉ "Wall, \"North\" Face".toList ∧
    quoteField "Wall, \"North\" Face".toList = "\"Wall, \"\"North\"\" Face\"".toList ∧
    trim "Wall, \"North\" Face".toList = "Wall, \"North\" Face".toList ∧
    parseCSV (quoteField "Wall, \"North\" Face".toList)
      = [[trim "Wall, \"North\" Face".toList]] :=
  ⟨by decide, by decide, by decide, parseCSV_quoteField _ (by decide)⟩

/-- C4: on a text without any double-quote character `parseCSV` is the naive
split: in line order, one row per line that is not white space only, the row
being the line's pieces between commas, each trimmed; such a row has one more
field than its line has commas. -/
theorem parseCSV_eq_naiveParse (text : Str) (h : '"' ∉ text) :
    parseCSV text = naiveParse text ∧
    ∀ line, (naiveRow line).length = line.count ',' + 1 := by
  refine ⟨?_, fun line => by simp [naiveRow, length_splitOnChar]⟩
  unfold parseCSV naiveParse
  rw [foldl_lines, List.nil_append]
  apply List.map_congr_left
  intro line hl
  have hq : '"' ∉ line :=
    fun e => h (mem_of_mem_splitLines _ _ _ (List.mem_filter.mp hl).1 e)
  rw [scanLine_unquoted _ _ _ hq, joinHead_nil _ (splitOnChar_ne_nil _ _)]
  simp [naiveRow]

/-- C4 on a text with a blank line, Windows and Unix line ends, and padded
fields. -/
theorem parseCSV_eq_naiveParse_witness :
    '"' ∉ "a, b ,c\r\n  \n\nd,,e\n".toList ∧
    parseCSV "a, b ,c\r\n  \n\nd,,e\n".toList
      = [["a".toList, "b".toList, "c".toList], ["d".toList, [], "e".toList]] ∧
    (parseCSV "a, b ,c\r\n  \n\nd,,e\n".toList = naiveParse "a, b ,c\r\n  \n\nd,,e\n".toList ∧
      ∀ line, (naiveRow line).length = line.count ',' + 1) :=
  ⟨by decide, by decide, parseCSV_eq_naiveParse _ (by decide)⟩

/-! ## Search (C1) -/

/-- C1: `getFilteredData` is an exact, order-preserving filter of the stored
rows.  For an empty query the result is the stored list; for a non-empty query
it is the stored list filtered, in order, by the test "some field at column 1,
2, 4 or 5 contains the lowercased query", so a stored row is in the result
exactly when it passes the test; the result is a subsequence of the stored
list, and the state after the call is the state before it. -/
theorem getFilteredData_exact_filter (H : Host) (s : State) :
    (getFilteredData H s).1 =
      (if s.searchQuery = [] then s.viesData
       else s.viesData.filter (fun row => decide (matchesQuery H s.searchQuery row))) ∧
    List.Sublist (getFilteredData H s).1 s.viesData ∧
    (∀ row ∈ s.viesData, s.searchQuery ≠ [] →
      (row ∈ (getFilteredData H s).1 ↔ matchesQuery H s.searchQuery row)) ∧
    (getFilteredData H s).2 = s := by
  have hf : s.viesData.filter (rowMatches H (H.toLowerCase s.searchQuery))
      = s.viesData.filter (fun row => decide (matchesQuery H s.searchQuery row)) := by
    apply List.filter_congr
    intro row _
    rw [Bool.eq_iff_iff, rowMatches_iff]
    simp
  by_cases hq : s.searchQuery = []
  · simp [getFilteredData, hq]
  · refine ⟨by simp [getFilteredData, hq, hf], ?_, ?_, by simp [getFilteredData, hq]⟩
    · simp only [getFilteredData, if_neg hq]
      exact List.filter_sublist _
    · intro row hrow _
      simp only [getFilteredData, if_neg hq, hf, List.mem_filter, hrow, true_and,
        decide_eq_true_eq]

/-- C1 on the spec's example rows: the query `FISSURA` keeps the rows with ids 2
and 3, in stored order, and the state is the one before the call. -/
theorem getFilteredData_exact_filter_witness :
    ids (getFilteredData plainHost
      ⟨exampleRows, ⟨0, "desc".toList⟩, "FISSURA".toList⟩).1 = ["2", "3"] ∧
    (getFilteredData plainHost ⟨exampleRows, ⟨0, "desc".toList⟩, "FISSURA".toList⟩).2
      = ⟨exampleRows, ⟨0, "desc".toList⟩, "FISSURA".toList⟩ :=
  ⟨by decide,
   (getFilteredData_exact_filter plainHost
      ⟨exampleRows, ⟨0, "desc".toList⟩, "FISSURA".toList⟩).2.2.2⟩

/-! ## Sorting on the grade column (C2) -/

/-- C2: `sortData(2, d)` is a stable sort on the grade key: the stored rows
after the call are a permutation of the rows before it, the key
`gradeToSortValue(trim(row[2] || ''))`, the number the code computes, is
non-decreasing along the list for `'asc'` and non-increasing for any other
direction, and for every key value the rows with that key stand in the order
they had before the call. -/
theorem sortData_grade_stable (H : Host) (d : Str) (s : State) :
    List.Perm (sortData H 2 d s).viesData s.viesData ∧
    (sortData H 2 d s).viesData.Pairwise (fun a b => inDirection d (gradeKey a) (gradeKey b)) ∧
    (∀ k : Number, (sortData H 2 d s).viesData.filter (fun row => decide (gradeKey row = k))
        = s.viesData.filter (fun row => decide (gradeKey row = k))) := by
  have hv : (sortData H 2 d s).viesData
      = s.viesData.insertionSort (fun a b => inDirection d (gradeKey a) (gradeKey b)) := by
    simp only [sortData, arraySort]
    rw [if_neg (by decide)]
    exact insertionSort_congr _ _ _ (fun a _ b _ => notAfter_grade H d a b)
  haveI : IsTotal Row (fun a b => inDirection d (gradeKey a) (gradeKey b)) :=
    ⟨fun a b => inDirection_key_total d (gradeKey_isKey a) (gradeKey_isKey b)⟩
  haveI : IsTrans Row (fun a b => inDirection d (gradeKey a) (gradeKey b)) :=
    ⟨fun a b c => inDirection_key_trans d (gradeKey_isKey a) (gradeKey_isKey b)
      (gradeKey_isKey c)⟩
  rw [hv]
  exact ⟨List.perm_insertionSort _ _, List.sorted_insertionSort _ _,
    fun k => filter_key_insertionSort _ gradeKey
      (fun a b => not_inDirection_key d (gradeKey_isKey a)) k _⟩

/-- C2, the spec's example: the rows with ids 3 (`5+`), 2 (`6a`), 1 (`6a+`)
held in the order 3, 2, 1 stay in that order under `sortData(2, 'asc')`, and
the statement of C2 holds of that call.  On grades of fifteen digits the key is
the rounded number: `900719925474100+` and `900719925474100` share the key
90071992547410000 and keep their order, before `900719925474100a`. -/
theorem sortData_grade_stable_witness :
    ids (sortData plainHost 2 "asc".toList
      ⟨[exampleRows.get! 2, exampleRows.get! 0, exampleRows.get! 1], ⟨0, "desc".toList⟩, []⟩).viesData
      = ["3", "2", "1"] ∧
    (exampleRows.map gradeKey = [Number.fin 610 0, Number.fin 615 0, Number.fin 505 0]) ∧
    ids (sortData plainHost 2 "asc".toList
      ⟨[["1", "x", "900719925474100+"].map String.toList,
        ["2", "y", "900719925474100a"].map String.toList,
        ["3", "z", "900719925474100"].map String.toList], ⟨0, "desc".toList⟩, []⟩).viesData
      = ["1", "3", "2"] ∧
    (List.Perm (sortData plainHost 2 "asc".toList
        ⟨[exampleRows.get! 2, exampleRows.get! 0, exampleRows.get! 1], ⟨0, "desc".toList⟩, []⟩).viesData
      [exampleRows.get! 2, exampleRows.get! 0, exampleRows.get! 1]) :=
  ⟨by decide, by decide, by decide, (sortData_grade_stable plainHost "asc".toList
    ⟨[exampleRows.get! 2, exampleRows.get! 0, exampleRows.get! 1], ⟨0, "desc".toList⟩, []⟩).1⟩

/-! ## The sort state (C7, C8) -/

/-- C7: a header click on a sortable column `C` (0 to 6) leaves the sort state
at `(C, 'desc')` when the state was `(C, 'asc')`, at `(C, 'asc')` when it was
`(C, 'desc')`, and at `(C, 'asc')` when the active column was another one. -/
theorem headerClick_transition (H : Host) (s : State) (C : Int) (hC : 0 ≤ C ∧ C ≤ 6) :
    (s.currentSort.column = C ∧ s.currentSort.direction = "asc".toList →
      (headerClick H C s).currentSort = ⟨C, "desc".toList⟩) ∧
    (s.currentSort.column = C ∧ s.currentSort.direction = "desc".toList →
      (headerClick H C s).currentSort = ⟨C, "asc".toList⟩) ∧
    (s.currentSort.column ≠ C → (headerClick H C s).currentSort = ⟨C, "asc".toList⟩) := by
  have h7 : ¬ COLUMN_TYPES C = some ColumnType.none := by
    rw [COLUMN_TYPES_eq_none_iff]; omega
  refine ⟨?_, ?_, ?_⟩
  · intro h
    simp [headerClick, sortData, h7, h]
  · rintro ⟨h1, h2⟩
    simp [headerClick, sortData, h7, h1, h2]
  · intro h
    simp [headerClick, sortData, h7, h]

/-- C7, the spec's example: from `(2, 'asc')` a click on column 2 gives
`(2, 'desc')`, and a click on column 3 then gives `(3, 'asc')`. -/
theorem headerClick_transition_witness :
    (headerClick plainHost 2 ⟨exampleRows, ⟨2, "asc".toList⟩, []⟩).currentSort
      = ⟨2, "desc".toList⟩ ∧
    (headerClick plainHost 3
      (headerClick plainHost 2 ⟨exampleRows, ⟨2, "asc".toList⟩, []⟩)).currentSort
      = ⟨3, "asc".toList⟩ :=
  ⟨(headerClick_transition plainHost ⟨exampleRows, ⟨2, "asc".toList⟩, []⟩ 2 (by decide)).1
      ⟨rfl, rfl⟩,
   (headerClick_transition plainHost _ 3 (by decide)).2.2 (by decide)⟩

/-- C8 as stated fails at column 8, an index with no `COLUMN_TYPES` entry: from
the initial state `sortData(8, 'asc')` sets the active column to 8, which is
not a sortable column, so the call is no no-op. -/
theorem sortData_unregistered_column_sets_currentSort :
    (sortData plainHost 8 "asc".toList initialState).currentSort = ⟨8, "asc".toList⟩ ∧
    COLUMN_TYPES 8 = Option.none ∧
    ¬ isSortable (sortData plainHost 8 "asc".toList initialState).currentSort.column ∧
    sortData plainHost 8 "asc".toList initialState ≠ initialState := by
  decide

/-- C8, amended: from a state whose sort is `(0, 'desc')`, after any sequence
of `sortData` calls whose column indices are keys of `COLUMN_TYPES` (0 to 7)
the active column is sortable, that is one of 0 to 6; a call on column 7 leaves
the whole state unchanged; a call on an index with no entry leaves the stored
rows unchanged and sets `currentSort` to the requested column and direction. -/
theorem sortCalls_column_sortable (H : Host) (calls : List (Int × Str)) (s : State)
    (hs : s.currentSort = ⟨0, "desc".toList⟩)
    (hc : ∀ call ∈ calls, 0 ≤ call.1 ∧ call.1 ≤ 7) :
    isSortable (sortCalls H calls s).currentSort.column ∧
    (0 ≤ (sortCalls H calls s).currentSort.column ∧
      (sortCalls H calls s).currentSort.column ≤ 6) ∧
    (∀ (d : Str) (st : State), sortData H 7 d st = st) ∧
    (∀ (c : Int) (d : Str) (st : State), COLUMN_TYPES c = Option.none →
      (sortData H c d st).viesData = st.viesData ∧
      (sortData H c d st).currentSort = ⟨c, d⟩) := by
  have hinv : ∀ (cs : List (Int × Str)) (st : State),
      (0 ≤ st.currentSort.column ∧ st.currentSort.column ≤ 6) →
      (∀ call ∈ cs, 0 ≤ call.1 ∧ call.1 ≤ 7) →
      0 ≤ (sortCalls H cs st).currentSort.column ∧
        (sortCalls H cs st).currentSort.column ≤ 6 := by
    intro cs
    induction cs with
    | nil => intro st h _; exact h
    | cons call cs ih =>
      intro st h hcs
      have hcall := hcs call (List.mem_cons_self _ _)
      simp only [sortCalls, List.foldl_cons]
      apply ih
      · by_cases h7 : call.1 = 7
        · simp [sortData, h7, COLUMN_TYPES, h]
        · have : ¬ COLUMN_TYPES call.1 = some ColumnType.none := by
            rw [COLUMN_TYPES_eq_none_iff]; exact h7
          simp only [sortData, if_neg this]
          omega
      · exact fun x hx => hcs x (List.mem_cons_of_mem _ hx)
  have h06 := hinv calls s (by rw [hs]; decide) hc
  refine ⟨(isSortable_iff _).mpr h06, h06, ?_, ?_⟩
  · intro d st
    simp [sortData, COLUMN_TYPES]
  · intro c d st hnone
    have : ¬ COLUMN_TYPES c = some ColumnType.none := by rw [hnone]; simp
    simp only [sortData, if_neg this, arraySort, and_true]
    rw [hnone]
    exact insertionSort_of_forall _ (notAfter_unregistered H c d) _

/-- C8, amended, on a run from the loaded example: grade ascending, then the
unsortable column 7, then date descending. -/
theorem sortCalls_column_sortable_witness :
    (sortCalls plainHost [(2, "asc".toList), (7, "desc".toList), (6, "desc".toList)]
      ⟨exampleRows, ⟨0, "desc".toList⟩, []⟩).currentSort = ⟨6, "desc".toList⟩ ∧
    isSortable (sortCalls plainHost [(2, "asc".toList), (7, "desc".toList), (6, "desc".toList)]
      ⟨exampleRows, ⟨0, "desc".toList⟩, []⟩).currentSort.column :=
  ⟨by decide,
   (sortCalls_column_sortable plainHost [(2, "asc".toList), (7, "desc".toList), (6, "desc".toList)]
      ⟨exampleRows, ⟨0, "desc".toList⟩, []⟩ rfl (by decide)).1⟩

/-! ## Ingestion (C9) -/

/-- C9 as stated fails: a data line without a comma gives a row of one field,
which ingestion stores and `getFilteredData` returns. -/
theorem fetchAndRenderVies_keeps_one_field_row :
    (fetchAndRenderVies plainHost "id,name\nabc".toList initialState).viesData
      = [["abc".toList]] ∧
    (getFilteredData plainHost
      (fetchAndRenderVies plainHost "id,name\nabc".toList initialState)).1 = [["abc".toList]] ∧
    ["abc".toList].length < 2 ∧
    renderTable plainHost (fetchAndRenderVies plainHost "id,name\nabc".toList initialState) = [] := by
  decide

/-- C9, amended: after ingestion of any text, for any query, no row that
`renderTable` renders has fewer than 2 fields (its guard skips such rows of
`getFilteredData`), while every stored row and every row of `getFilteredData`
has at least one field. -/
theorem renderTable_rows_have_two_fields (H : Host) (text query : Str) (s : State) :
    (∀ row ∈ renderTable H (searchInput query (fetchAndRenderVies H text s)),
      2 ≤ row.length) ∧
    (∀ row ∈ (searchInput query (fetchAndRenderVies H text s)).viesData, 1 ≤ row.length) ∧
    (∀ row ∈ (getFilteredData H (searchInput query (fetchAndRenderVies H text s))).1,
      1 ≤ row.length) := by
  have hstored : ∀ row ∈ (searchInput query (fetchAndRenderVies H text s)).viesData,
      1 ≤ row.length := by
    intro row hrow
    simp only [searchInput, fetchAndRenderVies, sortData, arraySort] at hrow
    rw [if_neg (by decide)] at hrow
    exact length_of_mem_parseCSV text row
      (List.mem_of_mem_tail ((List.mem_insertionSort _).mp hrow))
  have hsub : ∀ st : State, ∀ row ∈ (getFilteredData H st).1, row ∈ st.viesData := by
    intro st row hrow
    exact (getFilteredData_sublist H st).subset hrow
  refine ⟨?_, hstored, fun row hrow => hstored row (hsub _ row hrow)⟩
  intro row hrow
  simp only [renderTable, List.mem_filter] at hrow
  have := hrow.2
  simp only [Bool.not_eq_true', decide_eq_false_iff_not] at this
  omega

/-- C9, amended, on a text with a header, a blank line, a one-field line and
two full lines: the one-field row is stored but not rendered. -/
theorem renderTable_rows_have_two_fields_witness :
    (fetchAndRenderVies plainHost "id,name\n2,Riu\n\nabc\n1,Pont\n".toList initialState).viesData
      = [["2".toList, "Riu".toList], ["1".toList, "Pont".toList], ["abc".toList]] ∧
    renderTable plainHost
      (searchInput [] (fetchAndRenderVies plainHost "id,name\n2,Riu\n\nabc\n1,Pont\n".toList
        initialState))
      = [["2".toList, "Riu".toList], ["1".toList, "Pont".toList]] ∧
    (∀ row ∈ renderTable plainHost
        (searchInput [] (fetchAndRenderVies plainHost "id,name\n2,Riu\n\nabc\n1,Pont\n".toList
          initialState)),
      2 ≤ row.length) :=
  ⟨by decide, by decide,
   (renderTable_rows_have_two_fields plainHost "id,name\n2,Riu\n\nabc\n1,Pont\n".toList []
      initialState).1⟩

/-! ## Search after sort (C10) -/

/-- C10 as stated fails: the decimal integer literals 9007199254740993 and
9007199254740992 read as the same number, `2 ^ 53`, so `sortData(0, 'asc')`
leaves the two rows in their order, while the stable sort by column-0 value
puts 9007199254740992 first. -/
theorem sortData_col0_keeps_rounded_ties :
    isDecimalInteger "9007199254740993".toList ∧
    isDecimalInteger "9007199254740992".toList ∧
    parseFloat "9007199254740993".toList = parseFloat "9007199254740992".toList ∧
    (getFilteredData plainHost (sortData plainHost 0 "asc".toList
        ⟨[["9007199254740993".toList], ["9007199254740992".toList]],
          ⟨0, "desc".toList⟩, []⟩)).1
      = [["9007199254740993".toList], ["9007199254740992".toList]] ∧
    stableSortByCol0 "asc".toList
        (getFilteredData plainHost
          ⟨[["9007199254740993".toList], ["9007199254740992".toList]],
            ⟨0, "desc".toList⟩, []⟩).1
      = [["9007199254740992".toList], ["9007199254740993".toList]] := by
  decide

/-- C10, amended: when every stored row has a decimal integer literal in
column 0, the view under the current query after `sortData(0, d)` is the stable
sort of the view under the same query before the call, in direction `d`, by
the number the code reads from column 0, the binary64 value nearest to the
integer: the view after the call is a permutation of the view before it,
ordered by that number, with the rows of each number in the order they had.
When all the integers are below `2 ^ 53` that number is the integer, and the
view is the stable sort by column-0 integer value. -/
theorem getFilteredData_sortData_commute (H : Host) (d : Str) (s : State)
    (h : ∀ row ∈ s.viesData, isDecimalInteger ((getField row 0).getD [])) :
    (getFilteredData H (sortData H 0 d s)).1
      = stableSortByCol0Number d (getFilteredData H s).1 ∧
    (getFilteredData H (sortData H 0 d s)).1.Pairwise
      (fun a b => inDirection d (col0Number a) (col0Number b)) ∧
    List.Perm (getFilteredData H (sortData H 0 d s)).1 (getFilteredData H s).1 ∧
    (∀ k : Number,
      (getFilteredData H (sortData H 0 d s)).1.filter (fun row => decide (col0Number row = k))
        = (getFilteredData H s).1.filter (fun row => decide (col0Number row = k))) ∧
    ((∀ row ∈ s.viesData, col0Value row < 2 ^ 53) →
      (getFilteredData H (sortData H 0 d s)).1 = stableSortByCol0 d (getFilteredData H s).1) := by
  haveI : IsTotal Row (fun a b => inDirection d (col0Number a) (col0Number b)) :=
    ⟨fun a b => inDirection_key_total d (col0Number_isKey a) (col0Number_isKey b)⟩
  haveI : IsTrans Row (fun a b => inDirection d (col0Number a) (col0Number b)) :=
    ⟨fun a b c => inDirection_key_trans d (col0Number_isKey a) (col0Number_isKey b)
      (col0Number_isKey c)⟩
  have hv : (sortData H 0 d s).viesData
      = s.viesData.insertionSort (fun a b => inDirection d (col0Number a) (col0Number b)) := by
    simp only [sortData, arraySort]
    rw [if_neg (by decide)]
    exact insertionSort_congr _ _ _ (fun a ha b hb => notAfter_numeric H d a b (h a ha) (h b hb))
  have hq : (sortData H 0 d s).searchQuery = s.searchQuery := by
    simp only [sortData]
    rw [if_neg (by decide)]
  have heq : (getFilteredData H (sortData H 0 d s)).1
      = stableSortByCol0Number d (getFilteredData H s).1 := by
    unfold getFilteredData stableSortByCol0Number
    rw [hq, hv]
    by_cases hempty : s.searchQuery = []
    · simp [hempty]
    · simp only [if_neg hempty]
      exact filter_insertionSort (fun a b => inDirection d (col0Number a) (col0Number b))
        (fun a b => inDirection_key_total d (col0Number_isKey a) (col0Number_isKey b))
        (fun a b c => inDirection_key_trans d (col0Number_isKey a) (col0Number_isKey b)
          (col0Number_isKey c)) _ _
  refine ⟨heq, ?_, ?_, ?_, ?_⟩
  · rw [heq]
    exact List.sorted_insertionSort _ _
  · rw [heq]
    exact List.perm_insertionSort _ _
  · intro k
    rw [heq]
    exact filter_key_insertionSort _ col0Number
      (fun a b => not_inDirection_key d (col0Number_isKey a)) k _
  · intro hsmall
    rw [heq]
    unfold stableSortByCol0Number stableSortByCol0
    apply insertionSort_congr
    intro a ha b hb
    have hsub := (getFilteredData_sublist H s).subset
    exact inDirection_col0Number_iff d a b (hsmall a (hsub ha)) (hsmall b (hsub hb))

/-- C10, amended, on the spec's example: for the rows with ids 2 (Fissura),
1 (Placa) and 3 (Fissura), `sortData(0, 'desc')` gives the order 3, 2, 1, and
under the query `fissura` the view after `sortData(0, 'asc')` is 2, 3, the
stable sort by column-0 integer value of the view before the call. -/
theorem getFilteredData_sortData_commute_witness :
    ids (sortData plainHost 0 "desc".toList ⟨exampleRows, ⟨0, "desc".toList⟩, []⟩).viesData
      = ["3", "2", "1"] ∧
    ids (getFilteredData plainHost (sortData plainHost 0 "asc".toList
      ⟨exampleRows, ⟨0, "desc".toList⟩, "fissura".toList⟩)).1 = ["2", "3"] ∧
    (getFilteredData plainHost (sortData plainHost 0 "asc".toList
      ⟨exampleRows, ⟨0, "desc".toList⟩, "fissura".toList⟩)).1
      = stableSortByCol0 "asc".toList
          (getFilteredData plainHost ⟨exampleRows, ⟨0, "desc".toList⟩, "fissura".toList⟩).1 :=
  ⟨by decide, by decide,
   (getFilteredData_sortData_commute plainHost "asc".toList
      ⟨exampleRows, ⟨0, "desc".toList⟩, "fissura".toList⟩ (by decide)).2.2.2.2 (by decide)⟩

/-! ## The grade key (C5) -/

/-- C5 as stated fails: `900719925474100` and `900719925474100+` are
well-formed tokens, the triple of the first is lexicographically smaller, and
both get the key 90071992547410000, since the sum with 5 is rounded back to
the nearest binary64 number. -/
theorem gradeToSortValue_rounds_plus_away :
    gradeToken "900719925474100".toList Option.none true = "900719925474100+".toList ∧
    gradeToken "900719925474100".toList Option.none false = "900719925474100".toList ∧
    lexLess (digitsValue "900719925474100".toList) (letterRank Option.none) (plusFlag false)
      (digitsValue "900719925474100".toList) (letterRank Option.none) (plusFlag true) ∧
    gradeToSortValue "900719925474100".toList = Number.fin 90071992547410000 0 ∧
    gradeToSortValue "900719925474100+".toList = Number.fin 90071992547410000 0 ∧
    ¬ (gradeToSortValue "900719925474100".toList
        < gradeToSortValue "900719925474100+".toList) := by
  decide

/-- C5, amended: on well-formed grade tokens (digits, an optional letter a–c or
A–C, an optional `+`) whose number is at most 90071992547409, so that every key
is below `2 ^ 53`, `gradeToSortValue` is strictly monotone for the
lexicographic order on (number, letter rank, plus flag): the key is
`100 * number + 10 * rank + 5 * plus`, and the key of one token is below the
key of another exactly when its triple is lexicographically smaller.  The
placeholder `-` has a key below that of every well-formed token, of any size;
and the keys of `5`, `5+`, `6a`, `6a+`, `6b`, `7c+`, `8a` increase strictly. -/
theorem gradeToSortValue_strictMono (d1 d2 : Str) (l1 l2 : Option Char) (p1 p2 : Bool)
    (hd1 : isDecimalInteger d1) (hl1 : ∀ c, l1 = some c → isGradeLetter c = true)
    (hd2 : isDecimalInteger d2) (hl2 : ∀ c, l2 = some c → isGradeLetter c = true)
    (hb1 : digitsValue d1 ≤ 90071992547409) (hb2 : digitsValue d2 ≤ 90071992547409) :
    (gradeToSortValue (gradeToken d1 l1 p1) < gradeToSortValue (gradeToken d2 l2 p2) ↔
      lexLess (digitsValue d1) (letterRank l1) (plusFlag p1)
        (digitsValue d2) (letterRank l2) (plusFlag p2)) ∧
    gradeToSortValue (gradeToken d1 l1 p1)
      = Number.fin (100 * (digitsValue d1 : Int) + 10 * letterRank l1 + 5 * plusFlag p1) 0 ∧
    (∀ (d : Str) (l : Option Char) (p : Bool), isDecimalInteger d →
      (∀ c, l = some c → isGradeLetter c = true) →
      gradeToSortValue "-".toList < gradeToSortValue (gradeToken d l p)) ∧
    (gradeToSortValue "5".toList < gradeToSortValue "5+".toList ∧
      gradeToSortValue "5+".toList < gradeToSortValue "6a".toList ∧
      gradeToSortValue "6a".toList < gradeToSortValue "6a+".toList ∧
      gradeToSortValue "6a+".toList < gradeToSortValue "6b".toList ∧
      gradeToSortValue "6b".toList < gradeToSortValue "7c+".toList ∧
      gradeToSortValue "7c+".toList < gradeToSortValue "8a".toList ∧
      gradeToSortValue "-".toList < gradeToSortValue "5".toList) := by
  have hr1 := letterRank_bounds l1
  have hr2 := letterRank_bounds l2
  have hp1 := plusFlag_cases p1
  have hp2 := plusFlag_cases p2
  have hminus : gradeToSortValue "-".toList = Number.fin (-1) 0 := by decide
  refine ⟨?_, gradeToSortValue_gradeToken_exact d1 l1 p1 hd1 hl1 hb1, ?_, by decide⟩
  · rw [gradeToSortValue_gradeToken_exact d1 l1 p1 hd1 hl1 hb1,
      gradeToSortValue_gradeToken_exact d2 l2 p2 hd2 hl2 hb2]
    rw [fin_lt_fin]
    unfold lexLess
    omega
  · intro d l p hd hl
    rw [hminus]
    rcases gradeToSortValue_gradeToken_nonneg d l p hd hl with h | ⟨m, hm, h⟩
    · rw [h]
      exact fin_lt_inf _
    · rw [h, fin_lt_fin]
      omega

/-- C5, amended, on the tokens `6a+` and `6B`: the statement holds of them,
and their keys are 615 and 620.  The token `IV+` of the comment above the
pattern has no digits, does not match, and gets the key 0. -/
theorem gradeToSortValue_strictMono_witness :
    gradeToken "6".toList (some 'a') true = "6a+".toList ∧
    gradeToken "6".toList (some 'B') false = "6B".toList ∧
    gradeToSortValue "6a+".toList = Number.fin 615 0 ∧
    gradeToSortValue "6B".toList = Number.fin 620 0 ∧
    gradeToSortValue "IV+".toList = Number.fin 0 0 ∧
    (gradeToSortValue (gradeToken "6".toList (some 'a') true)
        < gradeToSortValue (gradeToken "6".toList (some 'B') false) ↔
      lexLess (digitsValue "6".toList) (letterRank (some 'a')) (plusFlag true)
        (digitsValue "6".toList) (letterRank (some 'B')) (plusFlag false)) :=
  ⟨by decide, by decide, by decide, by decide, by decide,
   (gradeToSortValue_strictMono "6".toList "6".toList (some 'a') (some 'B') true false
      (by decide) (by simp [isGradeLetter]) (by decide) (by simp [isGradeLetter])
      (by decide) (by decide)).1⟩

/-! ## The date key (C6) -/

/-- C6 as stated fails: 1 January 1960 is a valid calendar date whose key, the
timestamp of its midnight, lies below the key 0 of the placeholder `-`; the
key of 1 January 1970 in UTC equals that of the placeholder. -/
theorem dateToSortValue_not_above_placeholder :
    isValidDate 1 1 1960 ∧
    dateToSortValue plainHost "-".toList = Number.fin 0 0 ∧
    dateToSortValue plainHost "01/01/1960".toList = Number.fin (-315619200000) 0 ∧
    dateToSortValue plainHost "01/01/1970".toList = Number.fin 0 0 ∧
    ¬ (dateToSortValue plainHost "-".toList < dateToSortValue plainHost "01/01/1960".toList) := by
  decide

/-- C6, amended: `dateToSortValue("-") = dateToSortValue("") = 0`, and for
every token `D/M/Y` in digits that denotes a valid calendar date later than
1 January 1970 and of a year up to 275759, with a local time zone less than a
day away from UTC, the key is above the key of `-`; the key is the millisecond
timestamp of local midnight of the date built from (year, month - 1, day). -/
theorem dateToSortValue_after_epoch (H : Host) (D M Y : Str)
    (hD : isDecimalInteger D) (hM : isDecimalInteger M) (hY : isDecimalInteger Y)
    (hvalid : isValidDate (digitsValue D) (digitsValue M) (digitsValue Y))
    (hafter : 1970 < digitsValue Y ∨
      (digitsValue Y = 1970 ∧ (1 < digitsValue M ∨ 1 < digitsValue D)))
    (hmax : digitsValue Y ≤ 275759)
    (htz : ∀ t, -msPerDay < H.localTZA t ∧ H.localTZA t < msPerDay) :
    dateToSortValue H "-".toList = Number.fin 0 0 ∧ dateToSortValue H [] = Number.fin 0 0 ∧
    dateToSortValue H "-".toList < dateToSortValue H (dateToken D M Y) ∧
    ∃ u, dateToSortValue H (dateToken D M Y) = Number.fin u 0 ∧ 0 < u ∧
      u = makeDay (digitsValue Y) (digitsValue M - 1) (digitsValue D) * msPerDay
          - H.localTZA
              (makeDay (digitsValue Y) (digitsValue M - 1) (digitsValue D) * msPerDay) := by
  have e0 : Number.ofInt 0 = Number.fin 0 0 := by decide
  have hminus : dateToSortValue H "-".toList = Number.fin 0 0 := by
    simp [dateToSortValue, e0]
  have hempty : dateToSortValue H [] = Number.fin 0 0 := by
    simp [dateToSortValue, e0]
  obtain ⟨u, hu, hpos, hval⟩ := newDateGetTime_of_valid H _ _ _ hvalid hafter hmax htz
  rw [← dateToSortValue_dateToken H D M Y hD hM hY] at hu
  refine ⟨hminus, hempty, ?_, u, hu, hpos, hval⟩
  rw [hminus, hu, fin_lt_fin]
  exact hpos

/-- C6, amended, on the date of the spec's example row, 01/05/2021, in UTC. -/
theorem dateToSortValue_after_epoch_witness :
    dateToken "01".toList "05".toList "2021".toList = "01/05/2021".toList ∧
    dateToSortValue plainHost "01/05/2021".toList = Number.fin 1619827200000 0 ∧
    dateToSortValue plainHost "-".toList
      < dateToSortValue plainHost (dateToken "01".toList "05".toList "2021".toList) :=
  ⟨by decide, by decide,
   (dateToSortValue_after_epoch plainHost "01".toList "05".toList "2021".toList
      (by decide) (by decide) (by decide) (by decide) (by decide) (by decide)
      (fun _ => by simp [plainHost, msPerDay])).2.2.1⟩

end VerticalLog
